import Mathlib

/-!
# pxl8: block pixelation of a pixel grid

A shallow embedding of `main.go` (package `main` of `mattkubej/pxl8`).

* Go `int` channel values are `Int`; the one place where the 64-bit width can
  matter (the sum inside `averagePixels`) wraps explicitly through `wrapInt`.
* `[][]Pixel` is a list of columns, each column a list of pixels
  (`pixels[x][y]`, `x` the outer index).
* A Go runtime panic is an `Except.error`; a normal return is `Except.ok`.
* `for i := 0; i < n; i++` is `forLoop n`, a monadic left fold over
  `List.range n` that stops at the first panic.
* `image.Decode` and the colour types belong to the standard library: `getPixels`
  receives the outcome of the decoding, an image being its bounds and its colour
  function.
-/

namespace Pxl8

/-! ## Data model -/

/-- Pixel, the colour space representation of `main.go` (four `int` fields). -/
structure Pixel where
  R : Int
  G : Int
  B : Int
  A : Int
deriving DecidableEq, Repr

/-- A value of `[][]Pixel`: the outer list is indexed by `x`, the inner by `y`. -/
abbrev Grid := List (List Pixel)

/-- The runtime panics the program can raise. -/
inductive Panic where
  | divideByZero
  | indexOutOfRange
  | makeLenOutOfRange
deriving DecidableEq, Repr

/-- Equality of outcomes is decidable, so concrete runs can be evaluated. -/
instance instDecEqOutcome {α : Type} [DecidableEq α] : DecidableEq (Except Panic α)
  | .ok a, .ok b => if h : a = b then isTrue (by rw [h]) else isFalse (fun e => h (by cases e; rfl))
  | .error a, .error b =>
      if h : a = b then isTrue (by rw [h]) else isFalse (fun e => h (by cases e; rfl))
  | .ok _, .error _ => isFalse (fun e => by cases e)
  | .error _, .ok _ => isFalse (fun e => by cases e)

/-- The zero value of `Pixel`, which `make` and `var` produce. -/
def zeroPixel : Pixel := ⟨0, 0, 0, 0⟩

/-! ## Machine arithmetic -/

/-- Two's complement wrap-around of a mathematical integer into the 64-bit `int` range. -/
def wrapInt (v : Int) : Int := (v + 2 ^ 63) % 2 ^ 64 - 2 ^ 63

/-- Go `a / b` on `int`: panics on a zero divisor, otherwise truncates toward zero.
The dividends of this program are slice lengths and loop indices, which lie in
`[0, 2^63)`, so the quotient never leaves the `int` range. -/
def intQuo (a b : Int) : Except Panic Int :=
  if b = 0 then .error .divideByZero else .ok (Int.tdiv a b)

/-- Go `s[i]` as a read: panics unless `0 ≤ i < len(s)`. -/
def index {α : Type} (s : List α) (i : Int) : Except Panic α :=
  if i < 0 then .error .indexOutOfRange
  else match s[i.toNat]? with
    | some v => .ok v
    | none => .error .indexOutOfRange

/-- Go `s[i] = v`: panics unless `0 ≤ i < len(s)`. -/
def assign {α : Type} (s : List α) (i : Int) (v : α) : Except Panic (List α) :=
  if i < 0 then .error .indexOutOfRange
  else if i.toNat < s.length then .ok (s.set i.toNat v)
  else .error .indexOutOfRange

/-- Go `make([]T, n)` with element zero value `z`: panics on a negative length. -/
def makeSlice {α : Type} (z : α) (n : Int) : Except Panic (List α) :=
  if n < 0 then .error .makeLenOutOfRange else .ok (List.replicate n.toNat z)

/-- Go `for i := 0; i < n; i++ { body }` threading the mutable state `s`. -/
def forLoop {σ : Type} (n : Nat) (body : Nat → σ → Except Panic σ) (s : σ) : Except Panic σ :=
  (List.range n).foldlM (fun acc i => body i acc) s

/-! ## The program -/

/-- Function `rgbaToPixel` (main.go 22-31): the arguments are `uint32` values, read as
naturals; `int(r / 257)` is exact. -/
def rgbaToPixel (r g b a : Nat) : Pixel :=
  { R := ((r / 257 : Nat) : Int)
    G := ((g / 257 : Nat) : Int)
    B := ((b / 257 : Nat) : Int)
    A := ((a / 257 : Nat) : Int) }

/-- Function `averagePixels` (main.go 56-65): per channel, the wrapped `int` sum divided
by two with Go's truncating division. -/
def averagePixels (a b : Pixel) : Pixel :=
  { R := Int.tdiv (wrapInt (a.R + b.R)) 2
    G := Int.tdiv (wrapInt (a.G + b.G)) 2
    B := Int.tdiv (wrapInt (a.B + b.B)) 2
    A := Int.tdiv (wrapInt (a.A + b.A)) 2 }

/-- Lines 71-74 of `pixelate`: `make` the outer slice of `n` nil columns, then give
every column `int(height/blockSize)+1` zero pixels. -/
def makeAverages (width height : Nat) (blockSize : Int) : Except Panic Grid := do
  let q ← intQuo (width : Int) blockSize
  let averages ← makeSlice ([] : List Pixel) (q + 1)
  forLoop averages.length (fun i avs => do
    let r ← intQuo (height : Int) blockSize
    let col ← makeSlice zeroPixel (r + 1)
    assign avs (i : Int) col) averages

/-- Line 80 of `pixelate`:
`averages[avgX][avgY] = averagePixels(averages[avgX][avgY], pixels[x][y])`. -/
def accumulateAt (pixels : Grid) (blockSize : Int) (x y : Nat) (averages : Grid) :
    Except Panic Grid := do
  let avgX ← intQuo (x : Int) blockSize
  let avgY ← intQuo (y : Int) blockSize
  let col ← index averages avgX
  let cur ← index col avgY
  let src ← index pixels (x : Int)
  let p ← index src (y : Int)
  let col' ← assign col avgY (averagePixels cur p)
  assign averages avgX col'

/-- Lines 76-82 of `pixelate`: the accumulation pass, `x` outer and `y` inner. -/
def accumulate (pixels : Grid) (blockSize : Int) (width height : Nat) (averages : Grid) :
    Except Panic Grid :=
  forLoop width (fun x avs => forLoop height (accumulateAt pixels blockSize x) avs) averages

/-- Line 86 of `pixelate`: `result[x][y] = averages[int(x/blockSize)][int(y/blockSize)]`. -/
def writeAt (averages : Grid) (blockSize : Int) (x y : Nat) (result : Grid) :
    Except Panic Grid := do
  let avgX ← intQuo (x : Int) blockSize
  let avgY ← intQuo (y : Int) blockSize
  let col ← index averages avgX
  let v ← index col avgY
  let dst ← index result (x : Int)
  let dst' ← assign dst (y : Int) v
  assign result (x : Int) dst'

/-- Lines 84-88 of `pixelate`: the write-back pass. -/
def writeBack (averages : Grid) (blockSize : Int) (width height : Nat) (result : Grid) :
    Except Panic Grid :=
  forLoop width (fun x res => forLoop height (writeAt averages blockSize x) res) result

/-- Function `pixelate` (main.go 67-91). `result := pixels` copies the slice header only,
so `result` and `pixels` name the same storage: the write-back pass overwrites the
caller's grid, and the value returned here is also the content of `pixels` after the
call. The accumulation pass has finished reading `pixels` before the first write.
Columns are taken to be pairwise disjoint storage, as `getPixels` builds them. -/
def pixelate (pixels : Grid) (blockSize : Int) : Except Panic Grid := do
  let first ← index pixels 0
  let width := pixels.length
  let height := first.length
  let result := pixels
  let averages ← makeAverages width height blockSize
  let averages ← accumulate pixels blockSize width height averages
  writeBack averages blockSize width height result

/-! ## The program: images in and out -/

/-- A value of `image.Point`. -/
structure Point where
  X : Int
  Y : Int
deriving DecidableEq, Repr

/-- A value of `image.Rectangle`: the points `(x, y)` with `Min.X ≤ x < Max.X` and
`Min.Y ≤ y < Max.Y`. -/
structure Rectangle where
  Min : Point
  Max : Point
deriving DecidableEq, Repr

/-- What `color.Color.RGBA()` returns: four `uint32` values, read as naturals. -/
structure Color16 where
  r : Nat
  g : Nat
  b : Nat
  a : Nat
deriving DecidableEq, Repr

/-- A decoded `image.Image`, reduced to the two methods `getPixels` calls: `Bounds()` and
`At(x, y)` followed by `RGBA()`. -/
structure Image where
  Bounds : Rectangle
  At : Int → Int → Color16

/-- The error of `image.Decode`. -/
inductive DecodeError where
  | unknownFormat
  | invalidData
deriving DecidableEq, Repr

/-- Function `getPixels` (main.go 34-54). The argument is the outcome of
`image.Decode(file)`, which belongs to the standard library. The loops run `x` from `0`
below `bounds.Max.X` and `y` from `0` below `bounds.Max.Y`, appending to `row` and to
`pixels`. -/
def getPixels (decoded : Except DecodeError Image) : Except DecodeError Grid :=
  match decoded with
  | .error err => .error err
  | .ok img =>
    let width := img.Bounds.Max.X
    let height := img.Bounds.Max.Y
    .ok ((List.range width.toNat).foldl (fun (pixels : Grid) (x : Nat) =>
      pixels ++ [(List.range height.toNat).foldl (fun (row : List Pixel) (y : Nat) =>
        row ++ [rgbaToPixel (img.At x y).r (img.At x y).g (img.At x y).b (img.At x y).a])
        []]) [])

/-- The bounds of an image as `image.Decode` returns it to `getPixels`. Only the JPEG
and PNG decoders are registered (main.go 8-9, 132-133), and both allocate their image
with `image.Rect(0, 0, width, height)`: the bounds start at the origin. -/
def DecoderBounds (img : Image) : Prop :=
  img.Bounds.Min.X = 0 ∧ img.Bounds.Min.Y = 0

instance instDecidableDecoderBounds (img : Image) : Decidable (DecoderBounds img) := by
  unfold DecoderBounds; infer_instance

/-- A value of `color.RGBA`: four `uint8` fields, read as naturals. -/
structure RGBA8 where
  R : Nat
  G : Nat
  B : Nat
  A : Nat
deriving DecidableEq, Repr

/-- Go `uint8(v)` for an `int` `v`: the low eight bits. -/
def toUint8 (v : Int) : Nat := (v % 256).toNat

/-- Function `pixelToRGBA` (main.go 93-102). -/
def pixelToRGBA (pixel : Pixel) : RGBA8 :=
  { R := toUint8 pixel.R
    G := toUint8 pixel.G
    B := toUint8 pixel.B
    A := toUint8 pixel.A }

/-! ## Vocabulary of the specification -/

/-- The grid has `W` columns and every column has `H` entries. -/
def Rect (g : Grid) (W H : Nat) : Prop := g.length = W ∧ ∀ c ∈ g, c.length = H

instance instDecidableRect (g : Grid) (W H : Nat) : Decidable (Rect g W H) := by
  unfold Rect; infer_instance

/-- The pixel stored at `(x, y)`, if that coordinate exists. -/
def pixelAt (g : Grid) (x y : Nat) : Option Pixel :=
  match g[x]? with
  | some col => col[y]?
  | none => none

/-- Every channel of the pixel lies in `[0, 255]`. -/
def InRange (p : Pixel) : Prop :=
  (0 ≤ p.R ∧ p.R ≤ 255) ∧ (0 ≤ p.G ∧ p.G ≤ 255) ∧ (0 ≤ p.B ∧ p.B ≤ 255) ∧ (0 ≤ p.A ∧ p.A ≤ 255)

instance instDecidableInRange (p : Pixel) : Decidable (InRange p) := by
  unfold InRange; infer_instance

/-- Every pixel of the grid has its channels in `[0, 255]`. -/
def GridInRange (g : Grid) : Prop := ∀ c ∈ g, ∀ p ∈ c, InRange p

instance instDecidableGridInRange (g : Grid) : Decidable (GridInRange g) := by
  unfold GridInRange; infer_instance

/-- The in-bounds pixels `(x', y')` of a `W × H` grid with `⌊x'/S⌋ = ⌊x/S⌋` and
`⌊y'/S⌋ = ⌊y/S⌋`, listed with `x'` outer ascending and `y'` inner ascending. -/
def tilePixels (pixels : Grid) (W H : Nat) (S : Int) (x y : Nat) : List Pixel :=
  ((List.range W).filter (fun (x' : Nat) => Int.fdiv (x' : Int) S = Int.fdiv (x : Int) S)).flatMap
    (fun (x' : Nat) =>
      ((List.range H).filter (fun (y' : Nat) => Int.fdiv (y' : Int) S = Int.fdiv (y : Int) S)).filterMap
        (fun (y' : Nat) => pixelAt pixels x' y'))

/-- The running-average merge of a list of pixels: the left fold of `averagePixels`
from the zero pixel. -/
def runningAverage (ps : List Pixel) : Pixel := ps.foldl averagePixels zeroPixel

/-- Each of the four 2 × 2 quadrants of a 4 × 4 grid has a single colour: every
coordinate holds the pixel of the top-left corner `(2⌊x/2⌋, 2⌊y/2⌋)` of its quadrant. -/
def QuadrantsUniform (g : Grid) : Prop :=
  ∀ x, x < 4 → ∀ y, y < 4 → pixelAt g x y = pixelAt g (2 * (x / 2)) (2 * (y / 2))

instance instDecidableQuadrantsUniform (g : Grid) : Decidable (QuadrantsUniform g) := by
  unfold QuadrantsUniform; infer_instance

/-- The four channels of a pixel. -/
inductive Channel where
  | R
  | G
  | B
  | A
deriving DecidableEq, Repr

/-- The value of one channel of a pixel. -/
def Pixel.chan (p : Pixel) : Channel → Int
  | .R => p.R
  | .G => p.G
  | .B => p.B
  | .A => p.A

/-- The ceiling `⌈c / d⌉` of a quotient of integers with `d > 0`. -/
def ceilDiv (c d : Int) : Int := (c + d - 1) / d

/-- The 16-bit expansion of a `color.RGBA` value: every channel `v` becomes `v * 257`. -/
def expand16 (c : RGBA8) : Color16 :=
  { r := c.R * 257, g := c.G * 257, b := c.B * 257, a := c.A * 257 }

/-- The pixels `rgbaToPixel` can return, the only pixels the program builds. Its arguments
are `uint32` values, so every channel lies in `[0, 16711935]`, where
`16711935 = ⌊(2^32 - 1) / 257⌋`; for the 16-bit values of `RGBA()` it lies in `[0, 255]`. -/
def Extracted (p : Pixel) : Prop :=
  (0 ≤ p.R ∧ p.R ≤ 16711935) ∧ (0 ≤ p.G ∧ p.G ≤ 16711935) ∧
    (0 ≤ p.B ∧ p.B ≤ 16711935) ∧ (0 ≤ p.A ∧ p.A ≤ 16711935)

instance instDecidableExtracted (p : Pixel) : Decidable (Extracted p) := by
  unfold Extracted; infer_instance

/-- Every pixel of the grid is one `rgbaToPixel` can return. -/
def GridExtracted (g : Grid) : Prop := ∀ col ∈ g, ∀ p ∈ col, Extracted p

instance instDecidableGridExtracted (g : Grid) : Decidable (GridExtracted g) := by
  unfold GridExtracted; infer_instance

/-- Two successive calls `pixelate(pixels, blockSize)` on one slice. The first call writes
its output through `result`, which is the storage of `pixels` (main.go 69 and 86), so the
second call reads the grid the first call left there. The pair holds what each call
returned, as it was when that call returned. -/
def pixelateTwice (pixels : Grid) (blockSize : Int) : Except Panic (Grid × Grid) := do
  let first ← pixelate pixels blockSize
  let second ← pixelate first blockSize
  pure (first, second)

/-! ## Concrete grids -/

/-- A 5 × 5 grid of pairwise distinct in-range pixels: pixel `(x, y)` is
`(40 x + 8 y, x, y, 255)`. -/
def grid5 : Grid :=
  (List.range 5).map fun x => (List.range 5).map fun y => ⟨40 * x + 8 * y, x, y, 255⟩

/-- A 4 × 4 grid whose quadrants are red, green, blue and a translucent grey. -/
def quadGrid : Grid :=
  [[⟨255, 0, 0, 255⟩, ⟨255, 0, 0, 255⟩, ⟨0, 255, 0, 255⟩, ⟨0, 255, 0, 255⟩],
   [⟨255, 0, 0, 255⟩, ⟨255, 0, 0, 255⟩, ⟨0, 255, 0, 255⟩, ⟨0, 255, 0, 255⟩],
   [⟨0, 0, 255, 255⟩, ⟨0, 0, 255, 255⟩, ⟨16, 32, 64, 128⟩, ⟨16, 32, 64, 128⟩],
   [⟨0, 0, 255, 255⟩, ⟨0, 0, 255, 255⟩, ⟨16, 32, 64, 128⟩, ⟨16, 32, 64, 128⟩]]

/-- A 2 × 3 image with bounds `[0, 2) × [0, 3)`; outside of them `At` gives the zero
colour, as the standard image types do. -/
def originImage : Image :=
  { Bounds := ⟨⟨0, 0⟩, ⟨2, 3⟩⟩
    At := fun x y =>
      if 0 ≤ x ∧ x < 2 ∧ 0 ≤ y ∧ y < 3 then ⟨(257 * x).toNat, (257 * y).toNat, 65535, 65535⟩
      else ⟨0, 0, 0, 0⟩ }

/-- An image value with bounds `[1, 3) × [1, 3)`, opaque white inside and the zero colour
outside; no registered decoder produces such bounds. -/
def offsetImage : Image :=
  { Bounds := ⟨⟨1, 1⟩, ⟨3, 3⟩⟩
    At := fun x y =>
      if 1 ≤ x ∧ x < 3 ∧ 1 ≤ y ∧ y < 3 then ⟨65535, 65535, 65535, 65535⟩ else ⟨0, 0, 0, 0⟩ }

/-- An 8 × 8 grid, opaque throughout: pixel `(x, y)` is `(32 x, 32 y, 200, 255)`. -/
def grid8 : Grid :=
  (List.range 8).map fun x => (List.range 8).map fun y => ⟨32 * x, 32 * y, 200, 255⟩

/-! ## Auxiliary definitions for the loop invariants -/

/-- The grid after `g[i][j] = v`, when `(i, j)` is in range. -/
def setAt (g : Grid) (i j : Nat) (v : Pixel) : Grid :=
  match g[i]? with
  | some col => g.set i (col.set j v)
  | none => g

/-- The pixels of column `x` at rows below `k` whose tile row is `ty`, ascending. -/
def colPart (pixels : Grid) (t : Nat → Nat) (x ty k : Nat) : List Pixel :=
  ((List.range k).filter (fun y' => t y' = ty)).filterMap (fun y' => pixelAt pixels x y')

/-- The pixels of tile `(tx, ty)` in the columns below `k` of a grid of height `H`,
columns ascending and rows ascending inside a column. -/
def tilePart (pixels : Grid) (t : Nat → Nat) (H tx ty k : Nat) : List Pixel :=
  ((List.range k).filter (fun x' => t x' = tx)).flatMap (fun x' => colPart pixels t x' ty H)

/-- What the averages grid holds once the columns below `x` and, of column `x`, the rows
below `y` have been merged in. -/
def AccInv (pixels avs0 : Grid) (t : Nat → Nat) (H n m x y : Nat) (avs : Grid) : Prop :=
  Rect avs n m ∧ ∀ tx ty, pixelAt avs tx ty =
    (pixelAt avs0 tx ty).map (fun a0 =>
      (tilePart pixels t H tx ty x ++ (if t x = tx then colPart pixels t x ty y else [])).foldl
        averagePixels a0)

/-- What the result grid holds once the columns below `x` and, of column `x`, the rows
below `y` have been overwritten. -/
def WbInv (avs res0 : Grid) (t : Nat → Nat) (W H x y : Nat) (res : Grid) : Prop :=
  Rect res W H ∧ ∀ i j, i < W → j < H → pixelAt res i j =
    if i < x ∨ (i = x ∧ j < y) then pixelAt avs (t i) (t j) else pixelAt res0 i j

/-- On `[0, bound]` the program's tile index of a coordinate is `t`. -/
def TileIndex (S : Int) (t : Nat → Nat) (bound : Nat) : Prop :=
  (∀ v, v ≤ bound → intQuo (v : Int) S = .ok ((t v : Nat) : Int)) ∧
    ∀ v, v ≤ bound → t v ≤ t bound

/-! ## Loop rule and primitive operations -/

theorem foldlM_inv {σ : Type} (body : Nat → σ → Except Panic σ) (P : Nat → σ → Prop) :
    ∀ (n : Nat) (s0 : σ), P 0 s0 →
      (∀ i s, i < n → P i s → ∃ s', body i s = .ok s' ∧ P (i + 1) s') →
      ∃ s', forLoop n body s0 = .ok s' ∧ P n s' := by
  intro n
  induction n with
  | zero =>
    intro s0 h0 _
    exact ⟨s0, rfl, h0⟩
  | succ k ih =>
    intro s0 h0 hstep
    obtain ⟨s1, hs1, hP1⟩ := ih s0 h0 (fun i s hi hP => hstep i s (Nat.lt_succ_of_lt hi) hP)
    obtain ⟨s2, hs2, hP2⟩ := hstep k s1 (Nat.lt_succ_self k) hP1
    refine ⟨s2, ?_, hP2⟩
    unfold forLoop at hs1 ⊢
    rw [List.range_succ, List.foldlM_append, hs1]
    simp only [List.foldlM_cons, List.foldlM_nil]
    show (body k s1 >>= fun v => pure v) = Except.ok s2
    rw [hs2]
    rfl

theorem index_ok {α : Type} (s : List α) (i : Nat) (v : α) (h : s[i]? = some v) :
    index s (i : Int) = .ok v := by
  unfold index
  have : ¬ ((i : Int) < 0) := by omega
  simp [this, h]

theorem assign_ok {α : Type} (s : List α) (i : Nat) (v : α) (h : i < s.length) :
    assign s (i : Int) v = .ok (s.set i v) := by
  unfold assign
  have : ¬ ((i : Int) < 0) := by omega
  simp [this, h]

theorem makeSlice_ok {α : Type} (z : α) (n : Nat) :
    makeSlice z ((n : Int) + 1) = .ok (List.replicate (n + 1) z) := by
  unfold makeSlice
  have : ¬ ((n : Int) + 1 < 0) := by omega
  have h2 : ((n : Int) + 1).toNat = n + 1 := by omega
  simp [this, h2]

theorem intQuo_pos (v : Nat) (S : Int) (hS : 1 ≤ S) :
    intQuo (v : Int) S = .ok (((v / S.toNat : Nat)) : Int) := by
  unfold intQuo
  have h0 : S ≠ 0 := by omega
  rw [if_neg h0, Int.tdiv_eq_ediv (by omega) (by omega)]
  congr 1
  rw [Int.ofNat_ediv, Int.toNat_of_nonneg (by omega)]

theorem fdiv_pos (v : Nat) (S : Int) (hS : 1 ≤ S) :
    Int.fdiv (v : Int) S = (((v / S.toNat : Nat)) : Int) := by
  rw [Int.fdiv_eq_ediv _ (by omega), Int.ofNat_ediv, Int.toNat_of_nonneg (by omega)]

/-! ## Grids: reading and writing one cell -/

theorem Rect.getElem? {g : Grid} {W H : Nat} (hr : Rect g W H) {i : Nat} (hi : i < W) :
    ∃ col, g[i]? = some col ∧ col.length = H := by
  have hlt : i < g.length := by rw [hr.1]; exact hi
  exact ⟨g[i], List.getElem?_eq_getElem hlt, hr.2 _ (List.getElem_mem hlt)⟩

theorem Rect.pixelAt {g : Grid} {W H : Nat} (hr : Rect g W H) {i j : Nat} (hi : i < W)
    (hj : j < H) : ∃ p, pixelAt g i j = some p := by
  obtain ⟨col, hcol, hlen⟩ := hr.getElem? hi
  have hlt : j < col.length := by rw [hlen]; exact hj
  exact ⟨col[j], by simp [Pxl8.pixelAt, hcol, List.getElem?_eq_getElem hlt]⟩

theorem Rect.setAt {g : Grid} {W H : Nat} (hr : Rect g W H) (i j : Nat) (v : Pixel) :
    Rect (setAt g i j v) W H := by
  unfold Pxl8.setAt
  cases hcol : g[i]? with
  | none => exact hr
  | some col =>
    refine ⟨by simp [hr.1], ?_⟩
    intro c hc
    rcases List.mem_or_eq_of_mem_set hc with h | h
    · exact hr.2 c h
    · rw [h, List.length_set]
      exact hr.2 col (List.mem_iff_getElem?.mpr ⟨i, hcol⟩)

theorem pixelAt_setAt {g : Grid} {W H : Nat} (hr : Rect g W H) {i j : Nat} (hi : i < W)
    (hj : j < H) (v : Pixel) (i' j' : Nat) :
    pixelAt (setAt g i j v) i' j' = if i = i' ∧ j = j' then some v else pixelAt g i' j' := by
  obtain ⟨col, hcol, hlen⟩ := hr.getElem? hi
  have hi' : i < g.length := by rw [hr.1]; exact hi
  unfold Pxl8.setAt Pxl8.pixelAt
  simp only [hcol]
  rw [List.getElem?_set]
  by_cases h1 : i = i'
  · subst h1
    simp only [hi', if_true, true_and, hcol]
    rw [List.getElem?_set]
    by_cases h2 : j = j'
    · subst h2
      simp [hlen, hj]
    · simp [h2]
  · simp [h1]



/-! ## One iteration of each pass -/

theorem accumulateAt_ok {pixels avs : Grid} {S : Int} {W H n m x y tx ty : Nat}
    (hx : intQuo (x : Int) S = .ok (tx : Int)) (hy : intQuo (y : Int) S = .ok (ty : Int))
    (hp : Rect pixels W H) (ha : Rect avs n m) (hxW : x < W) (hyH : y < H)
    (htx : tx < n) (hty : ty < m) :
    ∃ cur p, pixelAt avs tx ty = some cur ∧ pixelAt pixels x y = some p ∧
      accumulateAt pixels S x y avs = .ok (setAt avs tx ty (averagePixels cur p)) := by
  obtain ⟨col, hcol, hlen⟩ := ha.getElem? htx
  obtain ⟨src, hsrc, hslen⟩ := hp.getElem? hxW
  have h1 : ty < col.length := by omega
  have h2 : y < src.length := by omega
  have h3 : tx < avs.length := by rw [ha.1]; exact htx
  refine ⟨col[ty], src[y], ?_, ?_, ?_⟩
  · simp [pixelAt, hcol, List.getElem?_eq_getElem h1]
  · simp [pixelAt, hsrc, List.getElem?_eq_getElem h2]
  · unfold accumulateAt
    rw [hx, hy]
    simp only [bind, Except.bind]
    rw [index_ok avs tx col hcol]
    simp only []
    rw [index_ok col ty col[ty] (List.getElem?_eq_getElem h1), index_ok pixels x src hsrc]
    simp only []
    rw [index_ok src y src[y] (List.getElem?_eq_getElem h2)]
    simp only []
    rw [assign_ok col ty _ h1]
    simp only []
    rw [assign_ok avs tx _ h3]
    simp [setAt, hcol]

theorem writeAt_ok {avs res : Grid} {S : Int} {W H n m x y tx ty : Nat}
    (hx : intQuo (x : Int) S = .ok (tx : Int)) (hy : intQuo (y : Int) S = .ok (ty : Int))
    (hr : Rect res W H) (ha : Rect avs n m) (hxW : x < W) (hyH : y < H)
    (htx : tx < n) (hty : ty < m) :
    ∃ v, pixelAt avs tx ty = some v ∧ writeAt avs S x y res = .ok (setAt res x y v) := by
  obtain ⟨col, hcol, hlen⟩ := ha.getElem? htx
  obtain ⟨dst, hdst, hdlen⟩ := hr.getElem? hxW
  have h1 : ty < col.length := by omega
  have h2 : y < dst.length := by omega
  have h3 : x < res.length := by rw [hr.1]; exact hxW
  refine ⟨col[ty], ?_, ?_⟩
  · simp [pixelAt, hcol, List.getElem?_eq_getElem h1]
  · unfold writeAt
    rw [hx, hy]
    simp only [bind, Except.bind]
    rw [index_ok avs tx col hcol]
    simp only []
    rw [index_ok col ty col[ty] (List.getElem?_eq_getElem h1), index_ok res x dst hdst]
    simp only []
    rw [assign_ok dst y _ h2]
    simp only []
    rw [assign_ok res x _ h3]
    simp [setAt, hdst]

theorem makeAverages_ok {S : Int} {W H tW tH : Nat}
    (hW : intQuo (W : Int) S = .ok (tW : Int)) (hH : intQuo (H : Int) S = .ok (tH : Int)) :
    makeAverages W H S =
      .ok (List.replicate (tW + 1) (List.replicate (tH + 1) zeroPixel)) := by
  unfold makeAverages
  rw [hW]
  simp only [bind, Except.bind]
  rw [makeSlice_ok]
  simp only [List.length_replicate]
  obtain ⟨avs, hrun, hlen, hall⟩ := foldlM_inv
    (fun i avs => do
      let r ← intQuo (H : Int) S
      let col ← makeSlice zeroPixel (r + 1)
      assign avs (i : Int) col)
    (fun i (avs : Grid) => avs.length = tW + 1 ∧
      ∀ j, j < i → avs[j]? = some (List.replicate (tH + 1) zeroPixel))
    (tW + 1) (List.replicate (tW + 1) ([] : List Pixel))
    ⟨by simp, fun j hj => absurd hj (Nat.not_lt_zero j)⟩
    (by
      intro i s hi hP
      refine ⟨s.set i (List.replicate (tH + 1) zeroPixel), ?_, by simp [hP.1], ?_⟩
      · rw [hH]
        simp only [bind, Except.bind]
        rw [makeSlice_ok]
        simp only []
        rw [assign_ok _ _ _ (by rw [hP.1]; exact hi)]
      · intro j hj
        rw [List.getElem?_set]
        by_cases hji : i = j
        · simp [hji, hP.1]; omega
        · rw [if_neg hji]
          exact hP.2 j (by omega))
  simp only [bind, Except.bind] at hrun
  rw [hrun]
  congr 1
  apply List.ext_getElem?
  intro j
  by_cases hj : j < tW + 1
  · rw [hall j hj, List.getElem?_replicate, if_pos hj]
  · rw [List.getElem?_replicate, if_neg hj, List.getElem?_eq_none (by omega)]

/-! ## The accumulation pass -/

theorem colPart_zero (pixels : Grid) (t : Nat → Nat) (x ty : Nat) :
    colPart pixels t x ty 0 = [] := rfl

theorem tilePart_zero (pixels : Grid) (t : Nat → Nat) (H tx ty : Nat) :
    tilePart pixels t H tx ty 0 = [] := rfl

theorem colPart_succ (pixels : Grid) (t : Nat → Nat) (x ty k : Nat) :
    colPart pixels t x ty (k + 1) =
      colPart pixels t x ty k ++ (if t k = ty then (pixelAt pixels x k).toList else []) := by
  unfold colPart
  rw [List.range_succ, List.filter_append, List.filterMap_append]
  congr 1
  by_cases h : t k = ty
  · cases hp : pixelAt pixels x k <;> simp [h, hp]
  · simp [h]

theorem tilePart_succ (pixels : Grid) (t : Nat → Nat) (H tx ty k : Nat) :
    tilePart pixels t H tx ty (k + 1) =
      tilePart pixels t H tx ty k ++ (if t k = tx then colPart pixels t k ty H else []) := by
  unfold tilePart
  rw [List.range_succ, List.filter_append, List.flatMap_append]
  congr 1
  by_cases h : t k = tx <;> simp [h]

theorem accInv_next_column {pixels avs0 : Grid} {t : Nat → Nat} {H n m x : Nat} {avs : Grid}
    (h : AccInv pixels avs0 t H n m x H avs) : AccInv pixels avs0 t H n m (x + 1) 0 avs := by
  refine ⟨h.1, fun tx ty => ?_⟩
  rw [h.2 tx ty, tilePart_succ, colPart_zero]
  simp

theorem accInv_step {pixels avs0 : Grid} {S : Int} {t : Nat → Nat} {W H n m x y : Nat}
    {avs : Grid} (hp : Rect pixels W H) (hxW : x < W) (hyH : y < H)
    (hx : intQuo (x : Int) S = .ok ((t x : Nat) : Int)) (htx : t x < n)
    (hy : intQuo (y : Int) S = .ok ((t y : Nat) : Int)) (hty : t y < m)
    (h : AccInv pixels avs0 t H n m x y avs) :
    ∃ avs', accumulateAt pixels S x y avs = .ok avs' ∧
      AccInv pixels avs0 t H n m x (y + 1) avs' := by
  obtain ⟨cur, p, hcur, hpx, hrun⟩ := accumulateAt_ok hx hy hp h.1 hxW hyH htx hty
  refine ⟨_, hrun, h.1.setAt _ _ _, fun tx ty => ?_⟩
  rw [pixelAt_setAt h.1 htx hty, colPart_succ]
  by_cases hc : t x = tx ∧ t y = ty
  · obtain ⟨h1, h2⟩ := hc
    subst h1 h2
    have hinv := h.2 (t x) (t y)
    rw [hcur] at hinv
    cases h0 : pixelAt avs0 (t x) (t y) with
    | none => rw [h0] at hinv; cases hinv
    | some a0 =>
      rw [h0] at hinv
      simp only [Option.map_some', Option.some.injEq, if_true] at hinv
      simp only [and_self, if_true, Option.map_some', Option.some.injEq, hpx, Option.toList_some]
      rw [← List.append_assoc, List.foldl_append, ← hinv]
      rfl
  · rw [if_neg hc, h.2 tx ty]
    by_cases h1 : t x = tx
    · have h2 : ¬ t y = ty := fun h2 => hc ⟨h1, h2⟩
      simp [h1, h2]
    · simp [h1]

theorem accumulate_ok {pixels avs0 : Grid} {S : Int} {t : Nat → Nat} {W H n m : Nat}
    (hp : Rect pixels W H) (ha : Rect avs0 n m)
    (hqx : ∀ v, v < W → intQuo (v : Int) S = .ok ((t v : Nat) : Int) ∧ t v < n)
    (hqy : ∀ v, v < H → intQuo (v : Int) S = .ok ((t v : Nat) : Int) ∧ t v < m) :
    ∃ avs, accumulate pixels S W H avs0 = .ok avs ∧ Rect avs n m ∧
      ∀ tx ty, pixelAt avs tx ty =
        (pixelAt avs0 tx ty).map (fun a0 => (tilePart pixels t H tx ty W).foldl averagePixels a0) := by
  have hstart : AccInv pixels avs0 t H n m 0 0 avs0 := by
    refine ⟨ha, fun tx ty => ?_⟩
    rw [tilePart_zero, colPart_zero]
    cases pixelAt avs0 tx ty <;> simp
  obtain ⟨avs, hrun, hinv⟩ := foldlM_inv
    (fun x avs => forLoop H (accumulateAt pixels S x) avs)
    (fun x avs => AccInv pixels avs0 t H n m x 0 avs) W avs0 hstart
    (by
      intro x s hxW hs
      obtain ⟨s', hrun', hs'⟩ := foldlM_inv (accumulateAt pixels S x)
        (fun y avs => AccInv pixels avs0 t H n m x y avs) H s hs
        (fun y s2 hyH hs2 =>
          accInv_step hp hxW hyH (hqx x hxW).1 (hqx x hxW).2 (hqy y hyH).1 (hqy y hyH).2 hs2)
      exact ⟨s', hrun', accInv_next_column hs'⟩)
  refine ⟨avs, hrun, hinv.1, fun tx ty => ?_⟩
  rw [hinv.2 tx ty, colPart_zero]
  simp

/-! ## The write-back pass -/

theorem wbInv_next_column {avs res0 : Grid} {t : Nat → Nat} {W H x : Nat} {res : Grid}
    (h : WbInv avs res0 t W H x H res) : WbInv avs res0 t W H (x + 1) 0 res := by
  refine ⟨h.1, fun i j hi hj => ?_⟩
  rw [h.2 i j hi hj]
  have : (i < x ∨ (i = x ∧ j < H)) ↔ (i < x + 1 ∨ (i = x + 1 ∧ j < 0)) := by omega
  simp only [this]

theorem wbInv_step {avs res0 : Grid} {S : Int} {t : Nat → Nat} {W H n m x y : Nat}
    {res : Grid} (ha : Rect avs n m) (hxW : x < W) (hyH : y < H)
    (hx : intQuo (x : Int) S = .ok ((t x : Nat) : Int)) (htx : t x < n)
    (hy : intQuo (y : Int) S = .ok ((t y : Nat) : Int)) (hty : t y < m)
    (h : WbInv avs res0 t W H x y res) :
    ∃ res', writeAt avs S x y res = .ok res' ∧ WbInv avs res0 t W H x (y + 1) res' := by
  obtain ⟨v, hv, hrun⟩ := writeAt_ok hx hy h.1 ha hxW hyH htx hty
  refine ⟨_, hrun, h.1.setAt _ _ _, fun i j hi hj => ?_⟩
  rw [pixelAt_setAt h.1 hxW hyH]
  by_cases hc : x = i ∧ y = j
  · obtain ⟨h1, h2⟩ := hc
    subst h1 h2
    simp [hv]
  · rw [if_neg hc, h.2 i j hi hj]
    have : (i < x ∨ (i = x ∧ j < y)) ↔ (i < x ∨ (i = x ∧ j < y + 1)) := by omega
    simp only [this]

theorem writeBack_ok {avs res0 : Grid} {S : Int} {t : Nat → Nat} {W H n m : Nat}
    (hr : Rect res0 W H) (ha : Rect avs n m)
    (hqx : ∀ v, v < W → intQuo (v : Int) S = .ok ((t v : Nat) : Int) ∧ t v < n)
    (hqy : ∀ v, v < H → intQuo (v : Int) S = .ok ((t v : Nat) : Int) ∧ t v < m) :
    ∃ out, writeBack avs S W H res0 = .ok out ∧ Rect out W H ∧
      ∀ i j, i < W → j < H → pixelAt out i j = pixelAt avs (t i) (t j) := by
  have hstart : WbInv avs res0 t W H 0 0 res0 :=
    ⟨hr, fun i j _ _ => by simp⟩
  obtain ⟨out, hrun, hinv⟩ := foldlM_inv
    (fun x res => forLoop H (writeAt avs S x) res)
    (fun x res => WbInv avs res0 t W H x 0 res) W res0 hstart
    (by
      intro x s hxW hs
      obtain ⟨s', hrun', hs'⟩ := foldlM_inv (writeAt avs S x)
        (fun y res => WbInv avs res0 t W H x y res) H s hs
        (fun y s2 hyH hs2 =>
          wbInv_step ha hxW hyH (hqx x hxW).1 (hqx x hxW).2 (hqy y hyH).1 (hqy y hyH).2 hs2)
      exact ⟨s', hrun', wbInv_next_column hs'⟩)
  refine ⟨out, hrun, hinv.1, fun i j hi hj => ?_⟩
  rw [hinv.2 i j hi hj, if_pos (Or.inl hi)]

/-! ## The whole of `pixelate` -/

theorem pixelAt_replicate (n m : Nat) (p : Pixel) (i j : Nat) :
    pixelAt (List.replicate n (List.replicate m p)) i j =
      if i < n ∧ j < m then some p else none := by
  unfold pixelAt
  rw [List.getElem?_replicate]
  by_cases hi : i < n
  · by_cases hj : j < m <;> simp [hi, hj, List.getElem?_replicate]
  · simp [hi]

theorem rect_replicate (n m : Nat) (p : Pixel) :
    Rect (List.replicate n (List.replicate m p)) n m := by
  refine ⟨by simp, fun c hc => ?_⟩
  rw [(List.mem_replicate.mp hc).2]
  simp

/-- Characterisation of a run of `pixelate` for any block size whose truncating division
acts as the tile index `t` on the coordinates of the grid. -/
theorem pixelate_general {pixels : Grid} {S : Int} {t : Nat → Nat} {W H : Nat}
    (hW : 1 ≤ W) (hp : Rect pixels W H) (htW : TileIndex S t W) (htH : TileIndex S t H) :
    ∃ out, pixelate pixels S = .ok out ∧ Rect out W H ∧
      ∀ x y, x < W → y < H →
        pixelAt out x y = some (runningAverage (tilePart pixels t H (t x) (t y) W)) := by
  obtain ⟨first, hfirst, hflen⟩ := hp.getElem? (show 0 < W from hW)
  have hqx : ∀ v, v < W → intQuo (v : Int) S = .ok ((t v : Nat) : Int) ∧ t v < t W + 1 :=
    fun v hv => ⟨htW.1 v (Nat.le_of_lt hv), Nat.lt_succ_of_le (htW.2 v (Nat.le_of_lt hv))⟩
  have hqy : ∀ v, v < H → intQuo (v : Int) S = .ok ((t v : Nat) : Int) ∧ t v < t H + 1 :=
    fun v hv => ⟨htH.1 v (Nat.le_of_lt hv), Nat.lt_succ_of_le (htH.2 v (Nat.le_of_lt hv))⟩
  have hmk := makeAverages_ok (htW.1 W (Nat.le_refl W)) (htH.1 H (Nat.le_refl H))
  obtain ⟨avs, hacc, havs, hval⟩ :=
    accumulate_ok hp (rect_replicate (t W + 1) (t H + 1) zeroPixel) hqx hqy
  obtain ⟨out, hwb, hout, hoval⟩ := writeBack_ok hp havs hqx hqy
  refine ⟨out, ?_, hout, fun x y hx hy => ?_⟩
  · unfold pixelate
    have h0 : index pixels 0 = .ok first := index_ok pixels 0 first hfirst
    rw [h0]
    simp only [bind, Except.bind]
    rw [hflen, hp.1, hmk]
    simp only []
    rw [hacc]
    exact hwb
  · rw [hoval x y hx hy, hval, pixelAt_replicate,
      if_pos ⟨(hqx x hx).2, (hqy y hy).2⟩]
    rfl

/-! ## Positive block sizes -/

theorem tileIndex_pos (S : Int) (hS : 1 ≤ S) (bound : Nat) :
    TileIndex S (fun v => v / S.toNat) bound :=
  ⟨fun v _ => intQuo_pos v S hS, fun _ hv => Nat.div_le_div_right hv⟩

theorem tilePixels_eq_tilePart (pixels : Grid) (W H : Nat) (S : Int) (hS : 1 ≤ S) (x y : Nat) :
    tilePixels pixels W H S x y =
      tilePart pixels (fun v => v / S.toNat) H (x / S.toNat) (y / S.toNat) W := by
  unfold tilePixels tilePart colPart
  simp only [fdiv_pos _ S hS, Nat.cast_inj]

/-- Characterisation of `pixelate` for a block size `S ≥ 1` on a rectangular grid with at
least one column. -/
theorem pixelate_pos {pixels : Grid} {S : Int} {W H : Nat}
    (hW : 1 ≤ W) (hp : Rect pixels W H) (hS : 1 ≤ S) :
    ∃ out, pixelate pixels S = .ok out ∧ Rect out W H ∧
      ∀ x y, x < W → y < H →
        pixelAt out x y = some ((tilePixels pixels W H S x y).foldl averagePixels zeroPixel) := by
  obtain ⟨out, hrun, hrect, hval⟩ :=
    pixelate_general hW hp (tileIndex_pos S hS W) (tileIndex_pos S hS H)
  refine ⟨out, hrun, hrect, fun x y hx hy => ?_⟩
  rw [hval x y hx hy, tilePixels_eq_tilePart pixels W H S hS]
  rfl

/-! ## The fold over a tile -/

/-- C1. For a rectangular grid with `W ≥ 1` columns of `H` entries and a block size
`S ≥ 1`, `pixelate` returns a grid whose pixel `(x, y)` is the left fold of
`averagePixels`, from the zero pixel, over the in-bounds input pixels of the same tile
(`⌊x'/S⌋ = ⌊x/S⌋`, `⌊y'/S⌋ = ⌊y/S⌋`), `x'` outer ascending and `y'` inner ascending; a
terminal tile smaller than `S × S` folds over the pixels it contains only. -/
theorem pixelate_tile_fold (pixels : Grid) (W H : Nat) (S : Int)
    (hW : 1 ≤ W) (hp : Rect pixels W H) (hS : 1 ≤ S) :
    ∃ out, pixelate pixels S = .ok out ∧
      ∀ x y, x < W → y < H →
        pixelAt out x y =
          some ((tilePixels pixels W H S x y).foldl averagePixels zeroPixel) := by
  obtain ⟨out, hrun, _, hval⟩ := pixelate_pos hW hp hS
  exact ⟨out, hrun, hval⟩

/-- Witness of C1 on the 5 × 5 grid `grid5` with block size 2, whose last tile in each
direction (index 2) holds a single row or column. -/
theorem pixelate_tile_fold_witness :
    1 ≤ 5 ∧ Rect grid5 5 5 ∧ (1 : Int) ≤ 2 ∧
      ∃ out, pixelate grid5 2 = .ok out ∧
        ∀ x y, x < 5 → y < 5 →
          pixelAt out x y =
            some ((tilePixels grid5 5 5 2 x y).foldl averagePixels zeroPixel) :=
  ⟨by decide, by decide, by decide,
    pixelate_tile_fold grid5 5 5 2 (by decide) (by decide) (by decide)⟩

/-! ## Arithmetic of `averagePixels` -/

theorem wrapInt_of_range (v : Int) (h0 : -2 ^ 63 ≤ v) (h1 : v < 2 ^ 63) : wrapInt v = v := by
  unfold wrapInt
  rw [Int.emod_eq_of_lt (by omega) (by omega)]
  omega

theorem avg_channel (a b : Int) (ha : 0 ≤ a) (hb : 0 ≤ b) (hab : a + b < 2 ^ 63) :
    Int.tdiv (wrapInt (a + b)) 2 = (a + b) / 2 := by
  rw [wrapInt_of_range _ (by omega) hab, Int.tdiv_eq_ediv (by omega) (by omega)]

theorem averagePixels_inRange (a b : Pixel) (ha : InRange a) (hb : InRange b) :
    InRange (averagePixels a b) := by
  obtain ⟨⟨h1, h2⟩, ⟨h3, h4⟩, ⟨h5, h6⟩, h7, h8⟩ := ha
  obtain ⟨⟨k1, k2⟩, ⟨k3, k4⟩, ⟨k5, k6⟩, k7, k8⟩ := hb
  unfold InRange averagePixels
  simp only []
  rw [avg_channel _ _ h1 k1 (by omega), avg_channel _ _ h3 k3 (by omega),
    avg_channel _ _ h5 k5 (by omega), avg_channel _ _ h7 k7 (by omega)]
  omega

/-- C8. For pixels `a`, `b` with channels in `[0, 255]`, every channel of
`averagePixels a b` is `⌊(a.channel + b.channel) / 2⌋`, computed from the two values of
that channel alone. -/
theorem averagePixels_floor (a b : Pixel) (ha : InRange a) (hb : InRange b) :
    averagePixels a b =
      ⟨Int.fdiv (a.R + b.R) 2, Int.fdiv (a.G + b.G) 2,
       Int.fdiv (a.B + b.B) 2, Int.fdiv (a.A + b.A) 2⟩ := by
  obtain ⟨⟨h1, h2⟩, ⟨h3, h4⟩, ⟨h5, h6⟩, h7, h8⟩ := ha
  obtain ⟨⟨k1, k2⟩, ⟨k3, k4⟩, ⟨k5, k6⟩, k7, k8⟩ := hb
  unfold averagePixels
  rw [avg_channel _ _ h1 k1 (by omega), avg_channel _ _ h3 k3 (by omega),
    avg_channel _ _ h5 k5 (by omega), avg_channel _ _ h7 k7 (by omega)]
  simp only [Int.fdiv_eq_ediv _ (show (0 : Int) ≤ 2 by decide)]

/-- Witness of C8: a translucent orange merged with an opaque blue. -/
theorem averagePixels_floor_witness :
    InRange ⟨255, 128, 1, 77⟩ ∧ InRange ⟨0, 3, 254, 255⟩ ∧
      averagePixels ⟨255, 128, 1, 77⟩ ⟨0, 3, 254, 255⟩ =
        ⟨Int.fdiv (255 + 0) 2, Int.fdiv (128 + 3) 2, Int.fdiv (1 + 254) 2,
         Int.fdiv (77 + 255) 2⟩ :=
  ⟨by decide, by decide, averagePixels_floor ⟨255, 128, 1, 77⟩ ⟨0, 3, 254, 255⟩
    (by decide) (by decide)⟩

/-- C9. For 16-bit channel values `r, g, b, a ≤ 65535`, `rgbaToPixel` returns the pixel
with channels `⌊r/257⌋, ⌊g/257⌋, ⌊b/257⌋, ⌊a/257⌋`, each of them in `[0, 255]`. -/
theorem rgbaToPixel_floor (r g b a : Nat) (hr : r ≤ 65535) (hg : g ≤ 65535) (hb : b ≤ 65535)
    (ha : a ≤ 65535) :
    rgbaToPixel r g b a =
        ⟨Int.fdiv (r : Int) 257, Int.fdiv (g : Int) 257, Int.fdiv (b : Int) 257,
         Int.fdiv (a : Int) 257⟩ ∧
      InRange (rgbaToPixel r g b a) := by
  constructor
  · unfold rgbaToPixel
    simp only [Int.fdiv_eq_ediv _ (show (0 : Int) ≤ 257 by decide), Int.ofNat_ediv]
    rfl
  · unfold InRange rgbaToPixel
    simp only []
    omega

/-- Witness of C9 at the largest and smallest 16-bit values and two in between. -/
theorem rgbaToPixel_floor_witness :
    65535 ≤ 65535 ∧ 0 ≤ 65535 ∧ 256 ≤ 65535 ∧ 32896 ≤ 65535 ∧
      (rgbaToPixel 65535 0 256 32896 =
          ⟨Int.fdiv ((65535 : Nat) : Int) 257, Int.fdiv ((0 : Nat) : Int) 257,
           Int.fdiv ((256 : Nat) : Int) 257, Int.fdiv ((32896 : Nat) : Int) 257⟩ ∧
        InRange (rgbaToPixel 65535 0 256 32896)) :=
  ⟨by decide, by decide, by decide, by decide,
    rgbaToPixel_floor 65535 0 256 32896 (by decide) (by decide) (by decide) (by decide)⟩

/-! ## Uniform quadrants of a 4 × 4 grid -/

theorem tilePixels_quadrant (g : Grid) (x y : Nat) (hx : x < 4) (hy : y < 4) :
    tilePixels g 4 4 2 x y =
      [2 * (x / 2), 2 * (x / 2) + 1].flatMap (fun x' =>
        [2 * (y / 2), 2 * (y / 2) + 1].filterMap (fun y' => pixelAt g x' y')) := by
  interval_cases x <;> interval_cases y <;> rfl

theorem fold_four_channel (v : Int) (h0 : 0 ≤ v) (h1 : v ≤ 255) :
    Int.tdiv (wrapInt (Int.tdiv (wrapInt (Int.tdiv (wrapInt (Int.tdiv (wrapInt (0 + v)) 2 + v)) 2
      + v)) 2 + v)) 2 = v - (v + 15) / 16 := by
  rw [avg_channel 0 v (by omega) h0 (by omega)]
  rw [avg_channel ((0 + v) / 2) v (by omega) h0 (by omega)]
  rw [avg_channel (((0 + v) / 2 + v) / 2) v (by omega) h0 (by omega)]
  rw [avg_channel ((((0 + v) / 2 + v) / 2 + v) / 2) v (by omega) h0 (by omega)]
  omega

theorem fold_four (p : Pixel) (hp : InRange p) :
    [p, p, p, p].foldl averagePixels zeroPixel =
      ⟨p.R - (p.R + 15) / 16, p.G - (p.G + 15) / 16, p.B - (p.B + 15) / 16,
       p.A - (p.A + 15) / 16⟩ := by
  obtain ⟨⟨h1, h2⟩, ⟨h3, h4⟩, ⟨h5, h6⟩, h7, h8⟩ := hp
  simp only [List.foldl, averagePixels, zeroPixel]
  rw [fold_four_channel _ h1 h2, fold_four_channel _ h3 h4, fold_four_channel _ h5 h6,
    fold_four_channel _ h7 h8]

theorem pixelAt_mem {g : Grid} {x y : Nat} {p : Pixel} (h : pixelAt g x y = some p) :
    ∃ col, col ∈ g ∧ p ∈ col := by
  unfold pixelAt at h
  cases hc : g[x]? with
  | none => rw [hc] at h; cases h
  | some col =>
    rw [hc] at h
    exact ⟨col, List.mem_iff_getElem?.mpr ⟨x, hc⟩, List.mem_iff_getElem?.mpr ⟨y, h⟩⟩

/-- C2, as the code behaves. For a 4 × 4 grid with channels in `[0, 255]` whose four
2 × 2 quadrants are each of one colour, `pixelate` with block size 2 returns a grid in
which every channel `v` of the input pixel at the same coordinate has become
`v - ⌈v/16⌉`: the zero-initialised running average of four copies of `v`. -/
theorem pixelate_uniform_quadrants (g : Grid) (hr : Rect g 4 4) (hin : GridInRange g)
    (hq : QuadrantsUniform g) :
    ∃ out, pixelate g 2 = .ok out ∧
      ∀ x y, x < 4 → y < 4 → ∃ p, pixelAt g x y = some p ∧
        pixelAt out x y =
          some ⟨p.R - (p.R + 15) / 16, p.G - (p.G + 15) / 16, p.B - (p.B + 15) / 16,
            p.A - (p.A + 15) / 16⟩ := by
  obtain ⟨out, hrun, _, hval⟩ := pixelate_pos (show 1 ≤ 4 by decide) hr (show (1 : Int) ≤ 2 by decide)
  refine ⟨out, hrun, fun x y hx hy => ?_⟩
  obtain ⟨p, hp⟩ := hr.pixelAt hx hy
  have hcorner : pixelAt g (2 * (x / 2)) (2 * (y / 2)) = some p := by
    rw [← hq x hx y hy]; exact hp
  have hsame : ∀ x' y', x' < 4 → y' < 4 → x' / 2 = x / 2 → y' / 2 = y / 2 →
      pixelAt g x' y' = some p := by
    intro x' y' hx' hy' ex ey
    rw [hq x' hx' y' hy', ex, ey]
    exact hcorner
  have hrange : InRange p := by
    obtain ⟨col, hcol, hmem⟩ := pixelAt_mem hp
    exact hin col hcol p hmem
  refine ⟨p, hp, ?_⟩
  rw [hval x y hx hy, tilePixels_quadrant g x y hx hy]
  have e1 := hsame (2 * (x / 2)) (2 * (y / 2)) (by omega) (by omega) (by omega) (by omega)
  have e2 := hsame (2 * (x / 2)) (2 * (y / 2) + 1) (by omega) (by omega) (by omega) (by omega)
  have e3 := hsame (2 * (x / 2) + 1) (2 * (y / 2)) (by omega) (by omega) (by omega) (by omega)
  have e4 := hsame (2 * (x / 2) + 1) (2 * (y / 2) + 1) (by omega) (by omega) (by omega)
    (by omega)
  simp only [List.flatMap_cons, List.flatMap_nil, List.filterMap_cons, List.filterMap_nil,
    e1, e2, e3, e4, List.append_nil, List.cons_append, List.nil_append]
  rw [fold_four p hrange]

/-- Witness of the amended C2 on `quadGrid`. -/
theorem pixelate_uniform_quadrants_witness :
    Rect quadGrid 4 4 ∧ GridInRange quadGrid ∧ QuadrantsUniform quadGrid ∧
      ∃ out, pixelate quadGrid 2 = .ok out ∧
        ∀ x y, x < 4 → y < 4 → ∃ p, pixelAt quadGrid x y = some p ∧
          pixelAt out x y =
            some ⟨p.R - (p.R + 15) / 16, p.G - (p.G + 15) / 16, p.B - (p.B + 15) / 16,
              p.A - (p.A + 15) / 16⟩ :=
  ⟨by decide, by decide, by decide,
    pixelate_uniform_quadrants quadGrid (by decide) (by decide) (by decide)⟩

set_option maxRecDepth 100000 in
/-- Counterexample to C2 as stated: `quadGrid` is a 4 × 4 grid of in-range pixels with
four uniform quadrants, and `pixelate` with block size 2 does not return it unchanged:
the red quadrant `(255, 0, 0, 255)` comes out as `(239, 0, 0, 239)`, and likewise for the
other three. -/
theorem pixelate_uniform_quadrants_changed :
    Rect quadGrid 4 4 ∧ GridInRange quadGrid ∧ QuadrantsUniform quadGrid ∧
      pixelate quadGrid 2 = .ok
        [[⟨239, 0, 0, 239⟩, ⟨239, 0, 0, 239⟩, ⟨0, 239, 0, 239⟩, ⟨0, 239, 0, 239⟩],
         [⟨239, 0, 0, 239⟩, ⟨239, 0, 0, 239⟩, ⟨0, 239, 0, 239⟩, ⟨0, 239, 0, 239⟩],
         [⟨0, 0, 239, 239⟩, ⟨0, 0, 239, 239⟩, ⟨15, 30, 60, 120⟩, ⟨15, 30, 60, 120⟩],
         [⟨0, 0, 239, 239⟩, ⟨0, 0, 239, 239⟩, ⟨15, 30, 60, 120⟩, ⟨15, 30, 60, 120⟩]] ∧
      pixelate quadGrid 2 ≠ .ok quadGrid :=
  ⟨by decide, by decide, by decide, by decide, by decide⟩

/-! ## Dimensions, tile uniformity and channel range -/

/-- C4. For a rectangular input grid of width `W ≥ 1` and height `H` and a block size
`S ≥ 1`, the grid returned by `pixelate` has exactly `W` columns and every column has
exactly `H` entries. -/
theorem pixelate_dimensions (pixels : Grid) (W H : Nat) (S : Int)
    (hW : 1 ≤ W) (hp : Rect pixels W H) (hS : 1 ≤ S) :
    ∃ out, pixelate pixels S = .ok out ∧ out.length = W ∧ ∀ col ∈ out, col.length = H := by
  obtain ⟨out, hrun, hrect, _⟩ := pixelate_pos hW hp hS
  exact ⟨out, hrun, hrect.1, hrect.2⟩

/-- Witness of C4 on the 5 × 5 grid with block size 2. -/
theorem pixelate_dimensions_witness :
    1 ≤ 5 ∧ Rect grid5 5 5 ∧ (1 : Int) ≤ 2 ∧
      ∃ out, pixelate grid5 2 = .ok out ∧ out.length = 5 ∧ ∀ col ∈ out, col.length = 5 :=
  ⟨by decide, by decide, by decide,
    pixelate_dimensions grid5 5 5 2 (by decide) (by decide) (by decide)⟩

/-- C5. For a rectangular grid with `W ≥ 1`, a block size `S ≥ 1` and in-bounds
coordinates `(x1, y1)`, `(x2, y2)` with `⌊x1/S⌋ = ⌊x2/S⌋` and `⌊y1/S⌋ = ⌊y2/S⌋`, the
output of `pixelate` holds the same pixel at both coordinates. -/
theorem pixelate_tile_uniform (pixels : Grid) (W H : Nat) (S : Int)
    (hW : 1 ≤ W) (hp : Rect pixels W H) (hS : 1 ≤ S) :
    ∃ out, pixelate pixels S = .ok out ∧
      ∀ x1 y1 x2 y2 : Nat, x1 < W → y1 < H → x2 < W → y2 < H →
        Int.fdiv (x1 : Int) S = Int.fdiv (x2 : Int) S →
        Int.fdiv (y1 : Int) S = Int.fdiv (y2 : Int) S →
        ∃ p, pixelAt out x1 y1 = some p ∧ pixelAt out x2 y2 = some p := by
  obtain ⟨out, hrun, _, hval⟩ := pixelate_pos hW hp hS
  refine ⟨out, hrun, fun x1 y1 x2 y2 h1 h2 h3 h4 ex ey => ⟨_, hval x1 y1 h1 h2, ?_⟩⟩
  rw [hval x2 y2 h3 h4]
  unfold tilePixels
  rw [ex, ey]

/-- Witness of C5 on the 5 × 5 grid with block size 2. -/
theorem pixelate_tile_uniform_witness :
    1 ≤ 5 ∧ Rect grid5 5 5 ∧ (1 : Int) ≤ 2 ∧
      ∃ out, pixelate grid5 2 = .ok out ∧
        ∀ x1 y1 x2 y2 : Nat, x1 < 5 → y1 < 5 → x2 < 5 → y2 < 5 →
          Int.fdiv (x1 : Int) 2 = Int.fdiv (x2 : Int) 2 →
          Int.fdiv (y1 : Int) 2 = Int.fdiv (y2 : Int) 2 →
          ∃ p, pixelAt out x1 y1 = some p ∧ pixelAt out x2 y2 = some p :=
  ⟨by decide, by decide, by decide,
    pixelate_tile_uniform grid5 5 5 2 (by decide) (by decide) (by decide)⟩

theorem foldl_inRange (ps : List Pixel) (hps : ∀ p ∈ ps, InRange p) :
    ∀ acc, InRange acc → InRange (ps.foldl averagePixels acc) := by
  induction ps with
  | nil => exact fun acc h => h
  | cons q qs ih =>
    intro acc hacc
    exact ih (fun p hp => hps p (List.mem_cons_of_mem q hp)) _
      (averagePixels_inRange acc q hacc (hps q (List.mem_cons_self q qs)))

theorem tilePixels_mem {pixels : Grid} {W H : Nat} {S : Int} {x y : Nat} {p : Pixel}
    (h : p ∈ tilePixels pixels W H S x y) : ∃ x' y', pixelAt pixels x' y' = some p := by
  unfold tilePixels at h
  obtain ⟨x', _, hx'⟩ := List.mem_flatMap.mp h
  obtain ⟨y', _, hy'⟩ := List.mem_filterMap.mp hx'
  exact ⟨x', y', hy'⟩

theorem zeroPixel_inRange : InRange zeroPixel := by decide

/-- C6. For a rectangular grid with `W ≥ 1` whose pixels all have channels in `[0, 255]`
and a block size `S ≥ 1`, every channel of every pixel of the `pixelate` output lies in
`[0, 255]`. -/
theorem pixelate_channel_range (pixels : Grid) (W H : Nat) (S : Int)
    (hW : 1 ≤ W) (hp : Rect pixels W H) (hS : 1 ≤ S) (hin : GridInRange pixels) :
    ∃ out, pixelate pixels S = .ok out ∧ GridInRange out := by
  obtain ⟨out, hrun, hrect, hval⟩ := pixelate_pos hW hp hS
  refine ⟨out, hrun, fun col hcol p hpmem => ?_⟩
  obtain ⟨x, hx⟩ := List.mem_iff_getElem?.mp hcol
  obtain ⟨y, hy⟩ := List.mem_iff_getElem?.mp hpmem
  have hxW : x < W := by
    rw [← hrect.1]
    exact (List.getElem?_eq_some.mp hx).1
  have hyH : y < H := by
    rw [← hrect.2 col hcol]
    exact (List.getElem?_eq_some.mp hy).1
  have hat : pixelAt out x y = some p := by simp [pixelAt, hx, hy]
  rw [hval x y hxW hyH] at hat
  rw [← Option.some.inj hat]
  refine foldl_inRange _ (fun q hq => ?_) _ zeroPixel_inRange
  obtain ⟨x', y', hq'⟩ := tilePixels_mem hq
  obtain ⟨c, hc, hqc⟩ := pixelAt_mem hq'
  exact hin c hc q hqc

/-- Witness of C6 on the 5 × 5 grid with block size 2. -/
theorem pixelate_channel_range_witness :
    1 ≤ 5 ∧ Rect grid5 5 5 ∧ (1 : Int) ≤ 2 ∧ GridInRange grid5 ∧
      ∃ out, pixelate grid5 2 = .ok out ∧ GridInRange out :=
  ⟨by decide, by decide, by decide, by decide,
    pixelate_channel_range grid5 5 5 2 (by decide) (by decide) (by decide) (by decide)⟩

/-! ## A block that covers the whole grid -/

theorem range_map_getElem? {α : Type} (l : List α) :
    (List.range l.length).map (fun i => l[i]?) = l.map some := by
  apply List.ext_getElem?
  intro k
  rw [List.getElem?_map, List.getElem?_map]
  by_cases hk : k < l.length
  · rw [List.getElem?_range hk, List.getElem?_eq_getElem hk]
    simp [List.getElem?_eq_getElem hk]
  · rw [List.getElem?_eq_none (by simpa using hk), List.getElem?_eq_none (by omega)]
    rfl

theorem range_filterMap_getElem? {α : Type} (l : List α) :
    (List.range l.length).filterMap (fun i => l[i]?) = l := by
  have h := List.filterMap_map (fun i => l[i]?) (fun o : Option α => o) (List.range l.length)
  rw [range_map_getElem?, List.filterMap_map] at h
  simpa [Function.comp_def] using h.symm

theorem column_pixels {pixels : Grid} {W H : Nat} (hp : Rect pixels W H) {x : Nat}
    {col : List Pixel} (hx : pixels[x]? = some col) :
    (List.range H).filterMap (fun y => pixelAt pixels x y) = col := by
  have hlen : col.length = H := hp.2 col (List.mem_iff_getElem?.mpr ⟨x, hx⟩)
  have : (fun y => pixelAt pixels x y) = fun y => col[y]? := by
    funext y
    simp [pixelAt, hx]
  rw [this, ← hlen]
  exact range_filterMap_getElem? col

theorem all_pixels {pixels : Grid} {W H : Nat} (hp : Rect pixels W H) :
    (List.range W).flatMap (fun x => (List.range H).filterMap (fun y => pixelAt pixels x y)) =
      pixels.flatten := by
  have h1 : (List.range W).flatMap
      (fun x => (List.range H).filterMap (fun y => pixelAt pixels x y)) =
      (List.range W).flatMap (fun x => (pixels[x]?).getD []) := by
    apply List.flatMap_congr
    intro x hx
    obtain ⟨col, hcol, _⟩ := hp.getElem? (List.mem_range.mp hx)
    rw [column_pixels hp hcol, hcol]
    rfl
  rw [h1, ← hp.1]
  have h2 := List.flatMap_map (fun i => pixels[i]?) (fun o : Option (List Pixel) => o.getD [])
    (List.range pixels.length)
  rw [range_map_getElem?, List.flatMap_map] at h2
  have h3 : (List.range pixels.length).flatMap (fun x => (pixels[x]?).getD []) =
      pixels.flatMap (fun a => a) := by
    simpa [Function.comp_def] using h2.symm
  rw [h3]
  exact List.flatMap_id pixels

theorem tilePixels_whole {pixels : Grid} {W H : Nat} {S : Int} (hp : Rect pixels W H)
    (hSW : (W : Int) ≤ S) (hSH : (H : Int) ≤ S) {x y : Nat} (hx : x < W) (hy : y < H) :
    tilePixels pixels W H S x y = pixels.flatten := by
  have hS : 1 ≤ S := by omega
  have hzero : ∀ v : Nat, (v : Int) < S → Int.fdiv (v : Int) S = 0 := by
    intro v hv
    rw [Int.fdiv_eq_ediv _ (by omega)]
    exact Int.ediv_eq_zero_of_lt (by omega) hv
  unfold tilePixels
  rw [List.filter_eq_self.mpr, List.filter_eq_self.mpr]
  · exact all_pixels hp
  · intro y' hy'
    have := List.mem_range.mp hy'
    rw [hzero y' (by omega), hzero y (by omega)]
    rfl
  · intro x' hx'
    have := List.mem_range.mp hx'
    rw [hzero x' (by omega), hzero x (by omega)]
    rfl

/-- C7. For a rectangular `W × H` grid with `W ≥ 1` and a block size `S ≥ max(W, H)`, every
pixel of the `pixelate` output is the running-average merge (left fold of `averagePixels`
from the zero pixel) of all input pixels taken column by column (`x` outer, `y` inner);
in particular all output pixels are equal. -/
theorem pixelate_single_tile (pixels : Grid) (W H : Nat) (S : Int)
    (hW : 1 ≤ W) (hp : Rect pixels W H) (hS : ((max W H : Nat) : Int) ≤ S) :
    ∃ out, pixelate pixels S = .ok out ∧
      ∀ x y, x < W → y < H →
        pixelAt out x y = some (pixels.flatten.foldl averagePixels zeroPixel) := by
  have hSW : (W : Int) ≤ S := by omega
  have hSH : (H : Int) ≤ S := by omega
  obtain ⟨out, hrun, _, hval⟩ := pixelate_pos hW hp (show 1 ≤ S by omega)
  refine ⟨out, hrun, fun x y hx hy => ?_⟩
  rw [hval x y hx hy, tilePixels_whole hp hSW hSH hx hy]

/-- Witness of C7 on the 5 × 5 grid with block size 5. -/
theorem pixelate_single_tile_witness :
    1 ≤ 5 ∧ Rect grid5 5 5 ∧ ((max 5 5 : Nat) : Int) ≤ 5 ∧
      ∃ out, pixelate grid5 5 = .ok out ∧
        ∀ x y, x < 5 → y < 5 →
          pixelAt out x y = some (grid5.flatten.foldl averagePixels zeroPixel) :=
  ⟨by decide, by decide, by decide,
    pixelate_single_tile grid5 5 5 5 (by decide) (by decide) (by decide)⟩

/-- C10. There are a block size `S ≥ 1` and two grids of equal dimensions, forming a
single tile that holds the same pixels in a different traversal order, for which
`pixelate` returns different outputs: the result depends on the order, so it is not the
arithmetic mean of the pixels of the tile. -/
theorem pixelate_order_dependent :
    ∃ (S : Int) (g1 g2 : Grid) (W H : Nat),
      1 ≤ S ∧ Rect g1 W H ∧ Rect g2 W H ∧ ((max W H : Nat) : Int) ≤ S ∧
      List.Perm g1.flatten g2.flatten ∧ g1.flatten ≠ g2.flatten ∧
      ∃ out1 out2, pixelate g1 S = .ok out1 ∧ pixelate g2 S = .ok out2 ∧ out1 ≠ out2 :=
  ⟨2, [[⟨0, 0, 0, 255⟩, ⟨200, 100, 50, 255⟩]], [[⟨200, 100, 50, 255⟩, ⟨0, 0, 0, 255⟩]], 1, 2,
    by decide, by decide, by decide, by decide, List.Perm.swap _ _ _, by decide,
    [[⟨100, 50, 25, 191⟩, ⟨100, 50, 25, 191⟩]], [[⟨50, 25, 12, 191⟩, ⟨50, 25, 12, 191⟩]],
    by decide, by decide, by decide⟩

/-! ## Block sizes that are not positive -/

theorem forLoop_first_error {σ : Type} (n : Nat) (body : Nat → σ → Except Panic σ) (s : σ)
    (e : Panic) (hn : 0 < n) (h : body 0 s = .error e) : forLoop n body s = .error e := by
  obtain ⟨k, rfl⟩ : ∃ k, n = k + 1 := ⟨n - 1, by omega⟩
  unfold forLoop
  rw [List.range_succ_eq_map, List.foldlM_cons, h]
  rfl

theorem forLoop_one {σ : Type} (body : Nat → σ → Except Panic σ) (s : σ) :
    forLoop 1 body s = body 0 s := by
  unfold forLoop
  show (body 0 s >>= fun v => pure v) = body 0 s
  cases body 0 s <;> rfl

theorem intQuo_neg (v s : Nat) (hs : 0 < s) :
    intQuo (v : Int) (-(s : Int)) = .ok (-((v / s : Nat) : Int)) := by
  unfold intQuo
  rw [if_neg (by omega), Int.tdiv_neg, Int.tdiv_eq_ediv (by omega) (by omega), Int.ofNat_ediv]

theorem accumulate_first_error (pixels avs : Grid) (S : Int) (W H : Nat) (e : Panic)
    (hW : 1 ≤ W) (hH : 1 ≤ H) (h : accumulateAt pixels S 0 0 avs = .error e) :
    accumulate pixels S W H avs = .error e :=
  forLoop_first_error W _ avs e hW (forLoop_first_error H _ avs e hH h)

theorem pixelate_zero_block (pixels : Grid) (W H : Nat) (hW : 1 ≤ W) (hp : Rect pixels W H) :
    pixelate pixels 0 = .error .divideByZero := by
  obtain ⟨first, hfirst, _⟩ := hp.getElem? (show 0 < W from hW)
  unfold pixelate
  have h0 : index pixels 0 = .ok first := index_ok pixels 0 first hfirst
  rw [h0]
  rfl

theorem pixelate_neg_block_error (pixels : Grid) (W H s : Nat) (hW : 1 ≤ W) (hH : 1 ≤ H)
    (hp : Rect pixels W H) (hs : 0 < s) (hle : s ≤ max W H) :
    pixelate pixels (-(s : Int)) =
      .error (if 2 * -(-(s : Int)) ≤ (W : Int) ∨
          ((W : Int) < -(-(s : Int)) ∧ 2 * -(-(s : Int)) ≤ (H : Int))
        then Panic.makeLenOutOfRange else Panic.indexOutOfRange) := by
  obtain ⟨first, hfirst, hflen⟩ := hp.getElem? (show 0 < W from hW)
  have h0 : index pixels 0 = .ok first := index_ok pixels 0 first hfirst
  have hq0 : intQuo ((0 : Nat) : Int) (-(s : Int)) = .ok 0 := by
    rw [intQuo_neg 0 s hs]; simp
  unfold pixelate
  rw [h0]
  simp only [bind, Except.bind]
  rw [hflen, hp.1]
  unfold makeAverages
  rw [intQuo_neg W s hs]
  simp only [bind, Except.bind]
  by_cases hW2 : 2 * s ≤ W
  · -- the outer `make` gets a negative length
    have h2 : 2 ≤ W / s := (Nat.le_div_iff_mul_le hs).mpr (by omega)
    have : makeSlice ([] : List Pixel) (-((W / s : Nat) : Int) + 1) = .error .makeLenOutOfRange := by
      unfold makeSlice
      rw [if_pos (by omega)]
    rw [this, if_pos (by omega)]
  · by_cases hW1 : s ≤ W
    · -- the averages grid has no column
      have h1 : W / s = 1 := by
        apply Nat.div_eq_of_lt_le <;> omega
      have : makeSlice ([] : List Pixel) (-((W / s : Nat) : Int) + 1) = .ok [] := by
        rw [h1]; rfl
      rw [this, if_neg (by omega)]
      simp only [List.length_nil]
      have hacc : accumulate pixels (-(s : Int)) W H [] = .error .indexOutOfRange := by
        apply accumulate_first_error _ _ _ _ _ _ hW hH
        unfold accumulateAt
        rw [hq0]
        rfl
      simp only [forLoop, List.range_zero, List.foldlM_nil, pure, Except.pure, hacc]
    · -- one column of averages; the height decides
      have h1 : W / s = 0 := Nat.div_eq_of_lt (by omega)
      have hHs : s ≤ H := by omega
      have : makeSlice ([] : List Pixel) (-((W / s : Nat) : Int) + 1) = .ok [[]] := by
        rw [h1]; rfl
      rw [this]
      simp only [List.length_cons, List.length_nil, Nat.zero_add]
      rw [forLoop_one, intQuo_neg H s hs]
      simp only [bind, Except.bind]
      by_cases hH2 : 2 * s ≤ H
      · have h2 : 2 ≤ H / s := (Nat.le_div_iff_mul_le hs).mpr (by omega)
        have : makeSlice zeroPixel (-((H / s : Nat) : Int) + 1) = .error .makeLenOutOfRange := by
          unfold makeSlice
          rw [if_pos (by omega)]
        rw [this, if_pos (by omega)]
      · have h3 : H / s = 1 := by
          apply Nat.div_eq_of_lt_le <;> omega
        have : makeSlice zeroPixel (-((H / s : Nat) : Int) + 1) = .ok [] := by
          rw [h3]; rfl
        rw [this, if_neg (by omega)]
        have hacc : accumulate pixels (-(s : Int)) W H [[]] = .error .indexOutOfRange := by
          apply accumulate_first_error _ _ _ _ _ _ hW hH
          unfold accumulateAt
          rw [hq0]
          rfl
        have hset : assign [([] : List Pixel)] ((0 : Nat) : Int) [] = .ok [[]] := rfl
        simp only [hset, hacc]

theorem tileIndex_neg (s bound : Nat) (hb : bound < s) :
    TileIndex (-(s : Int)) (fun _ => 0) bound := by
  refine ⟨fun v hv => ?_, fun _ _ => Nat.le_refl 0⟩
  rw [intQuo_neg v s (by omega), Nat.div_eq_of_lt (by omega)]
  rfl

theorem tilePart_const {pixels : Grid} {W H : Nat} (hp : Rect pixels W H) :
    tilePart pixels (fun _ => 0) H 0 0 W = pixels.flatten := by
  unfold tilePart colPart
  rw [List.filter_eq_self.mpr (fun _ _ => by simp), List.filter_eq_self.mpr (fun _ _ => by simp)]
  exact all_pixels hp

theorem pixelate_neg_block_ok (pixels : Grid) (W H s : Nat) (hW : 1 ≤ W)
    (hp : Rect pixels W H) (hgt : max W H < s) :
    ∃ out, pixelate pixels (-(s : Int)) = .ok out ∧ Rect out W H ∧
      ∀ x y, x < W → y < H →
        pixelAt out x y = some (pixels.flatten.foldl averagePixels zeroPixel) := by
  obtain ⟨out, hrun, hrect, hval⟩ :=
    pixelate_general hW hp (tileIndex_neg s W (by omega)) (tileIndex_neg s H (by omega))
  refine ⟨out, hrun, hrect, fun x y hx hy => ?_⟩
  rw [hval x y hx hy, tilePart_const hp]
  rfl

/-- C3, as the code behaves. `pixelate` validates nothing. For a rectangular grid with
`W ≥ 1`, `H ≥ 1` and a block size `S ≤ 0`:
* `S = 0` panics with an integer division by zero;
* `S < 0` with `-S ≤ max(W, H)` panics, with a `make` length out of range when
  `W ≥ 2(-S)`, or `W < -S` and `H ≥ 2(-S)`, and with an index out of range otherwise;
* `S < -max(W, H)` is not rejected: every truncated quotient is `0` and `pixelate` returns
  the `W × H` grid whose every pixel is the running-average merge of all input pixels,
  column by column. -/
theorem pixelate_nonpositive_block (pixels : Grid) (W H : Nat) (S : Int)
    (hW : 1 ≤ W) (hH : 1 ≤ H) (hp : Rect pixels W H) (hS : S ≤ 0) :
    (S = 0 → pixelate pixels S = .error .divideByZero) ∧
      (S < 0 → -S ≤ ((max W H : Nat) : Int) →
        pixelate pixels S =
          .error (if 2 * -S ≤ (W : Int) ∨ ((W : Int) < -S ∧ 2 * -S ≤ (H : Int))
            then Panic.makeLenOutOfRange else Panic.indexOutOfRange)) ∧
      (((max W H : Nat) : Int) < -S →
        ∃ out, pixelate pixels S = .ok out ∧ Rect out W H ∧
          ∀ x y, x < W → y < H →
            pixelAt out x y = some (pixels.flatten.foldl averagePixels zeroPixel)) := by
  obtain ⟨s, rfl⟩ : ∃ s : Nat, S = -(s : Int) := ⟨(-S).toNat, by omega⟩
  refine ⟨fun h0 => ?_, fun hneg hle => ?_, fun hgt => ?_⟩
  · rw [h0]
    exact pixelate_zero_block pixels W H hW hp
  · exact pixelate_neg_block_error pixels W H s hW hH hp (by omega) (by omega)
  · exact pixelate_neg_block_ok pixels W H s hW hp (by omega)

/-- Witness of the amended C3 on the 5 × 5 grid: block size `0` divides by zero, `-3`
makes the code index an averages grid without columns, and `-6` returns a grid. -/
theorem pixelate_nonpositive_block_witness :
    1 ≤ 5 ∧ 1 ≤ 5 ∧ Rect grid5 5 5 ∧ (0 : Int) ≤ 0 ∧ (-3 : Int) ≤ 0 ∧ (-6 : Int) ≤ 0 ∧
      pixelate grid5 0 = .error .divideByZero ∧
      pixelate grid5 (-3) = .error .indexOutOfRange ∧
      ∃ out, pixelate grid5 (-6) = .ok out ∧ Rect out 5 5 ∧
        ∀ x y, x < 5 → y < 5 →
          pixelAt out x y = some (grid5.flatten.foldl averagePixels zeroPixel) :=
  ⟨by decide, by decide, by decide, by decide, by decide, by decide,
    (pixelate_nonpositive_block grid5 5 5 0 (by decide) (by decide) (by decide)
      (by decide)).1 rfl,
    (pixelate_nonpositive_block grid5 5 5 (-3) (by decide) (by decide) (by decide)
      (by decide)).2.1 (by decide) (by decide),
    (pixelate_nonpositive_block grid5 5 5 (-6) (by decide) (by decide) (by decide)
      (by decide)).2.2 (by decide)⟩

/-- Counterexample to C3 as stated: on the 1 × 1 grid holding `(100, 100, 100, 100)` the
block size `-2 ≤ 0` is not rejected; `pixelate` returns a grid. -/
theorem pixelate_negative_block_returns :
    Rect [[⟨100, 100, 100, 100⟩]] 1 1 ∧ (-2 : Int) ≤ 0 ∧
      pixelate [[⟨100, 100, 100, 100⟩]] (-2) = .ok [[⟨50, 50, 50, 50⟩]] :=
  ⟨by decide, by decide, by decide⟩

/-! ## Conversion back to 8-bit colour -/

theorem toUint8_of_range (v : Int) (h0 : 0 ≤ v) (h1 : v ≤ 255) : ((toUint8 v : Nat) : Int) = v := by
  unfold toUint8
  omega

theorem rgbaToPixel_expand (v : Int) (h0 : 0 ≤ v) (h1 : v ≤ 255) :
    (((toUint8 v * 257 / 257 : Nat)) : Int) = v := by
  rw [Nat.mul_div_cancel _ (by decide : 0 < 257)]
  exact toUint8_of_range v h0 h1

/-- C16. For a pixel `p` with channels in `[0, 255]`, `pixelToRGBA p` carries the four
channel values of `p` unchanged (the conversion to `uint8` does not wrap), and
`rgbaToPixel` applied to its 16-bit expansion (every channel `v` becoming `v * 257`)
returns `p`. -/
theorem pixelToRGBA_roundtrip (p : Pixel) (hp : InRange p) :
    (((pixelToRGBA p).R : Int) = p.R ∧ ((pixelToRGBA p).G : Int) = p.G ∧
        ((pixelToRGBA p).B : Int) = p.B ∧ ((pixelToRGBA p).A : Int) = p.A) ∧
      rgbaToPixel (expand16 (pixelToRGBA p)).r (expand16 (pixelToRGBA p)).g
        (expand16 (pixelToRGBA p)).b (expand16 (pixelToRGBA p)).a = p := by
  obtain ⟨⟨h1, h2⟩, ⟨h3, h4⟩, ⟨h5, h6⟩, h7, h8⟩ := hp
  refine ⟨⟨toUint8_of_range _ h1 h2, toUint8_of_range _ h3 h4, toUint8_of_range _ h5 h6,
    toUint8_of_range _ h7 h8⟩, ?_⟩
  cases p with
  | mk r g b a =>
    simp only [rgbaToPixel, expand16, pixelToRGBA, Pixel.mk.injEq]
    exact ⟨rgbaToPixel_expand r h1 h2, rgbaToPixel_expand g h3 h4, rgbaToPixel_expand b h5 h6,
      rgbaToPixel_expand a h7 h8⟩

/-- Witness of C16 at a pixel that touches both ends of the range. -/
theorem pixelToRGBA_roundtrip_witness :
    InRange ⟨255, 0, 128, 1⟩ ∧
      ((((pixelToRGBA ⟨255, 0, 128, 1⟩).R : Int) = 255 ∧
          ((pixelToRGBA ⟨255, 0, 128, 1⟩).G : Int) = 0 ∧
          ((pixelToRGBA ⟨255, 0, 128, 1⟩).B : Int) = 128 ∧
          ((pixelToRGBA ⟨255, 0, 128, 1⟩).A : Int) = 1) ∧
        rgbaToPixel (expand16 (pixelToRGBA ⟨255, 0, 128, 1⟩)).r
          (expand16 (pixelToRGBA ⟨255, 0, 128, 1⟩)).g
          (expand16 (pixelToRGBA ⟨255, 0, 128, 1⟩)).b
          (expand16 (pixelToRGBA ⟨255, 0, 128, 1⟩)).a = ⟨255, 0, 128, 1⟩) :=
  ⟨by decide, pixelToRGBA_roundtrip ⟨255, 0, 128, 1⟩ (by decide)⟩

/-! ## Absence of panics -/

/-- C13. For a rectangular grid of width `W ≥ 1` and height `H ≥ 0` and a block size
`S ≥ 1`, the averages grid is made with `(⌊W/S⌋ + 1) × (⌊H/S⌋ + 1)` entries and holds an
entry at `(⌊x/S⌋, ⌊y/S⌋)` for every `x < W` and `y < H`; `pixelate` returns a grid and
raises no panic (no division by zero, no index out of range). -/
theorem pixelate_no_panic (pixels : Grid) (W H : Nat) (S : Int)
    (hW : 1 ≤ W) (hp : Rect pixels W H) (hS : 1 ≤ S) :
    (∃ avs, makeAverages W H S = .ok avs ∧
        Rect avs ((Int.fdiv (W : Int) S).toNat + 1) ((Int.fdiv (H : Int) S).toNat + 1) ∧
        ∀ x y : Nat, x < W → y < H →
          ∃ a, pixelAt avs (Int.fdiv (x : Int) S).toNat (Int.fdiv (y : Int) S).toNat = some a) ∧
      (∃ out, pixelate pixels S = .ok out) ∧ ∀ e, pixelate pixels S ≠ .error e := by
  obtain ⟨out, hrun, _, _⟩ := pixelate_pos hW hp hS
  refine ⟨⟨_, makeAverages_ok (intQuo_pos W S hS) (intQuo_pos H S hS), ?_, ?_⟩, ⟨out, hrun⟩, ?_⟩
  · simp only [fdiv_pos _ S hS, Int.toNat_ofNat]
    exact rect_replicate _ _ _
  · intro x y hx hy
    simp only [fdiv_pos _ S hS, Int.toNat_ofNat]
    refine ⟨zeroPixel, ?_⟩
    rw [pixelAt_replicate, if_pos]
    exact ⟨Nat.lt_succ_of_le (Nat.div_le_div_right (Nat.le_of_lt hx)),
      Nat.lt_succ_of_le (Nat.div_le_div_right (Nat.le_of_lt hy))⟩
  · intro e he
    rw [hrun] at he
    cases he

/-- Witness of C13 on the 5 × 5 grid with block size 2. -/
theorem pixelate_no_panic_witness :
    1 ≤ 5 ∧ Rect grid5 5 5 ∧ (1 : Int) ≤ 2 ∧
      ((∃ avs, makeAverages 5 5 2 = .ok avs ∧
          Rect avs ((Int.fdiv ((5 : Nat) : Int) 2).toNat + 1)
            ((Int.fdiv ((5 : Nat) : Int) 2).toNat + 1) ∧
          ∀ x y : Nat, x < 5 → y < 5 →
            ∃ a, pixelAt avs (Int.fdiv (x : Int) 2).toNat (Int.fdiv (y : Int) 2).toNat =
              some a) ∧
        (∃ out, pixelate grid5 2 = .ok out) ∧ ∀ e, pixelate grid5 2 ≠ .error e) :=
  ⟨by decide, by decide, by decide,
    pixelate_no_panic grid5 5 5 2 (by decide) (by decide) (by decide)⟩

/-! ## One channel through the running average -/

theorem averagePixels_chan (a b : Pixel) (ch : Channel) :
    (averagePixels a b).chan ch = Int.tdiv (wrapInt (a.chan ch + b.chan ch)) 2 := by
  cases ch <;> rfl

theorem inRange_chan {p : Pixel} (hp : InRange p) (ch : Channel) :
    0 ≤ p.chan ch ∧ p.chan ch ≤ 255 := by
  obtain ⟨h1, h2, h3, h4⟩ := hp
  cases ch
  · exact h1
  · exact h2
  · exact h3
  · exact h4

theorem tilePixels_inRange {pixels : Grid} (hin : GridInRange pixels) {W H : Nat} {S : Int}
    {x y : Nat} {p : Pixel} (h : p ∈ tilePixels pixels W H S x y) : InRange p := by
  obtain ⟨x', y', hq⟩ := tilePixels_mem h
  obtain ⟨col, hcol, hmem⟩ := pixelAt_mem hq
  exact hin col hcol p hmem

theorem foldl_chan_lt (ch : Channel) (M : Int) (hM : M ≤ 255) (ps : List Pixel)
    (hps : ∀ p ∈ ps, 0 ≤ p.chan ch ∧ p.chan ch ≤ M) :
    ∀ acc : Pixel, 0 ≤ acc.chan ch → acc.chan ch < M →
      0 ≤ (ps.foldl averagePixels acc).chan ch ∧ (ps.foldl averagePixels acc).chan ch < M := by
  induction ps with
  | nil => exact fun acc h0 h1 => ⟨h0, h1⟩
  | cons q qs ih =>
    intro acc h0 h1
    have hq := hps q (List.mem_cons_self q qs)
    have hstep : (averagePixels acc q).chan ch = (acc.chan ch + q.chan ch) / 2 := by
      rw [averagePixels_chan, avg_channel _ _ h0 hq.1 (by omega)]
    rw [List.foldl_cons]
    apply ih (fun p hp => hps p (List.mem_cons_of_mem q hp))
    · rw [hstep]; omega
    · rw [hstep]; omega

/-- C15. For a rectangular grid with `W ≥ 1` and channels in `[0, 255]` and a block size
`S ≥ 1`, every channel of the output pixel at an in-bounds `(x, y)` is strictly smaller
than the largest value `M` of that channel among the input pixels of the tile of `(x, y)`
whenever `M > 0`; and no output channel equals 255. -/
theorem pixelate_below_max (pixels : Grid) (W H : Nat) (S : Int)
    (hW : 1 ≤ W) (hp : Rect pixels W H) (hS : 1 ≤ S) (hin : GridInRange pixels)
    (ch : Channel) (x y : Nat) (hx : x < W) (hy : y < H) :
    ∃ out q, pixelate pixels S = .ok out ∧ pixelAt out x y = some q ∧
      (∀ M : Int, (∃ p ∈ tilePixels pixels W H S x y, p.chan ch = M) →
        (∀ p ∈ tilePixels pixels W H S x y, p.chan ch ≤ M) → 0 < M → q.chan ch < M) ∧
      q.chan ch ≠ 255 := by
  obtain ⟨out, hrun, _, hval⟩ := pixelate_pos hW hp hS
  refine ⟨out, _, hrun, hval x y hx hy, ?_, ?_⟩
  · intro M ⟨p, hpmem, hpM⟩ hmax hpos
    have hM : M ≤ 255 := by
      rw [← hpM]
      exact (inRange_chan (tilePixels_inRange hin hpmem) ch).2
    exact (foldl_chan_lt ch M hM _
      (fun r hr => ⟨(inRange_chan (tilePixels_inRange hin hr) ch).1, hmax r hr⟩)
      zeroPixel (by cases ch <;> decide) (by cases ch <;> exact hpos)).2
  · have hlt := (foldl_chan_lt ch 255 (Int.le_refl 255) (tilePixels pixels W H S x y)
      (fun r hr => inRange_chan (tilePixels_inRange hin hr) ch)
      zeroPixel (by cases ch <;> decide) (by cases ch <;> decide)).2
    omega

/-- Witness of C15 on the 5 × 5 grid with block size 2, for the alpha channel of the
partial tile at `(4, 4)`. -/
theorem pixelate_below_max_witness :
    1 ≤ 5 ∧ Rect grid5 5 5 ∧ (1 : Int) ≤ 2 ∧ GridInRange grid5 ∧ 4 < 5 ∧ 4 < 5 ∧
      ∃ out q, pixelate grid5 2 = .ok out ∧ pixelAt out 4 4 = some q ∧
        (∀ M : Int, (∃ p ∈ tilePixels grid5 5 5 2 4 4, p.chan Channel.A = M) →
          (∀ p ∈ tilePixels grid5 5 5 2 4 4, p.chan Channel.A ≤ M) → 0 < M →
            q.chan Channel.A < M) ∧
        q.chan Channel.A ≠ 255 :=
  ⟨by decide, by decide, by decide, by decide, by decide, by decide,
    pixelate_below_max grid5 5 5 2 (by decide) (by decide) (by decide) (by decide)
      Channel.A 4 4 (by decide) (by decide)⟩

theorem neg_ediv_eq_neg_ceilDiv (c d : Int) (hd : 0 < d) : (-c) / d = -ceilDiv c d := by
  unfold ceilDiv
  have h := Int.emod_add_ediv (c + d - 1) d
  have hr0 := Int.emod_nonneg (c + d - 1) (Int.ne_of_gt hd)
  have hr1 := Int.emod_lt_of_pos (c + d - 1) hd
  have hsplit : -c = (d - 1 - (c + d - 1) % d) + d * (-((c + d - 1) / d)) := by
    rw [mul_neg]; omega
  rw [hsplit, Int.add_mul_ediv_left _ _ (Int.ne_of_gt hd),
    Int.ediv_eq_zero_of_lt (by omega) (by omega)]
  simp

theorem ceilDiv_eq_zero_iff (c d : Int) (hc : 0 ≤ c) (hd : 0 < d) : ceilDiv c d = 0 ↔ c = 0 := by
  unfold ceilDiv
  constructor
  · intro h
    by_contra hne
    have h1 : (1 : Int) ≤ (c + d - 1) / d := (Int.le_ediv_iff_mul_le hd).mpr (by omega)
    omega
  · intro h
    subst h
    exact Int.ediv_eq_zero_of_lt (by omega) (by omega)

theorem ceilDiv_eq_one (c d : Int) (hc : 1 ≤ c) (hcd : c ≤ d) : ceilDiv c d = 1 := by
  unfold ceilDiv
  have hd : 0 < d := by omega
  have h1 : (1 : Int) ≤ (c + d - 1) / d := (Int.le_ediv_iff_mul_le hd).mpr (by omega)
  have h2 : (c + d - 1) / d < 2 := (Int.ediv_lt_iff_lt_mul hd).mpr (by omega)
  omega

theorem ediv_two_ediv (u D : Int) (hD : 0 < D) : u / 2 / D = u / (2 * D) := by
  have hr0 := Int.emod_nonneg u (show 2 * D ≠ 0 by omega)
  have hr1 := Int.emod_lt_of_pos u (show 0 < 2 * D by omega)
  have h := Int.emod_add_ediv u (2 * D)
  rw [mul_assoc] at h
  generalize u / (2 * D) = q at h ⊢
  generalize u % (2 * D) = r at h hr0 hr1
  rw [← h, Int.add_mul_ediv_left r (D * q) (by decide : (2 : Int) ≠ 0),
    Int.add_mul_ediv_left (r / 2) q (Int.ne_of_gt hD),
    Int.ediv_eq_zero_of_lt (by omega) (by omega)]
  simp

theorem foldl_chan_uniform (ch : Channel) (c : Int) (hc0 : 0 ≤ c) (hc1 : c < 2 ^ 62)
    (ps : List Pixel) (hps : ∀ p ∈ ps, p.chan ch = c) :
    ∀ (acc : Pixel) (u : Int), -c ≤ u → u ≤ 0 → acc.chan ch = c + u →
      (ps.foldl averagePixels acc).chan ch = c + u / 2 ^ ps.length := by
  induction ps with
  | nil =>
    intro acc u _ _ hacc
    simpa using hacc
  | cons q qs ih =>
    intro acc u hu0 hu1 hacc
    have hq : q.chan ch = c := hps q (List.mem_cons_self q qs)
    have hstep : (averagePixels acc q).chan ch = c + u / 2 := by
      rw [averagePixels_chan, hacc, hq, avg_channel _ _ (by omega) hc0 (by omega)]
      omega
    rw [List.foldl_cons,
      ih (fun p hp => hps p (List.mem_cons_of_mem q hp)) _ (u / 2) (by omega) (by omega) hstep,
      ediv_two_ediv _ _ (pow_pos (by decide) qs.length), List.length_cons, pow_succ']

theorem runningAverage_uniform (ch : Channel) (c : Int) (hc0 : 0 ≤ c) (hc1 : c < 2 ^ 62)
    (ps : List Pixel) (hps : ∀ p ∈ ps, p.chan ch = c) :
    (ps.foldl averagePixels zeroPixel).chan ch = c - ceilDiv c (2 ^ ps.length) ∧
      ((ps.foldl averagePixels zeroPixel).chan ch = c ↔ c = 0) ∧
      (ps.length = 64 → 1 ≤ c → c ≤ 255 → (ps.foldl averagePixels zeroPixel).chan ch = c - 1) := by
  have hpow : ∀ n : Nat, (0 : Int) < 2 ^ n := fun n => pow_pos (by decide) n
  have hq : (ps.foldl averagePixels zeroPixel).chan ch = c - ceilDiv c (2 ^ ps.length) := by
    rw [foldl_chan_uniform ch c hc0 hc1 _ hps zeroPixel (-c) (by omega) (by omega)
      (by cases ch <;> simp [zeroPixel, Pixel.chan]), neg_ediv_eq_neg_ceilDiv c _ (hpow _)]
    omega
  refine ⟨hq, ?_, ?_⟩
  · rw [hq]
    have := ceilDiv_eq_zero_iff c _ hc0 (hpow ps.length)
    omega
  · intro hn h1 h255
    rw [hq, hn, ceilDiv_eq_one c _ h1 (by omega)]

theorem tilePixels_mem_coords {g : Grid} {W H : Nat} {S : Int} {x y : Nat} {p : Pixel}
    (h : p ∈ tilePixels g W H S x y) :
    ∃ x' y' : Nat, x' < W ∧ y' < H ∧ Int.fdiv (x' : Int) S = Int.fdiv (x : Int) S ∧
      Int.fdiv (y' : Int) S = Int.fdiv (y : Int) S ∧ pixelAt g x' y' = some p := by
  unfold tilePixels at h
  obtain ⟨x', hx', hin⟩ := List.mem_flatMap.mp h
  obtain ⟨y', hy', hpy⟩ := List.mem_filterMap.mp hin
  rw [List.mem_filter] at hx' hy'
  exact ⟨x', y', List.mem_range.mp hx'.1, List.mem_range.mp hy'.1,
    of_decide_eq_true hx'.2, of_decide_eq_true hy'.2, hpy⟩

theorem tilePixels_self_mem {g : Grid} {W H : Nat} (hp : Rect g W H) (S : Int) {x y : Nat}
    (hx : x < W) (hy : y < H) :
    ∃ p, pixelAt g x y = some p ∧ p ∈ tilePixels g W H S x y := by
  obtain ⟨p, hpx⟩ := hp.pixelAt hx hy
  refine ⟨p, hpx, ?_⟩
  unfold tilePixels
  exact List.mem_flatMap.mpr ⟨x,
    List.mem_filter.mpr ⟨List.mem_range.mpr hx, decide_eq_true rfl⟩,
    List.mem_filterMap.mpr ⟨y,
      List.mem_filter.mpr ⟨List.mem_range.mpr hy, decide_eq_true rfl⟩, hpx⟩⟩

theorem extracted_chan {p : Pixel} (hp : Extracted p) (ch : Channel) :
    0 ≤ p.chan ch ∧ p.chan ch ≤ 16711935 := by
  obtain ⟨h1, h2, h3, h4⟩ := hp
  cases ch
  · exact h1
  · exact h2
  · exact h3
  · exact h4

theorem rgbaToPixel_extracted (r g b a : Nat) (hr : r < 2 ^ 32) (hg : g < 2 ^ 32)
    (hb : b < 2 ^ 32) (ha : a < 2 ^ 32) : Extracted (rgbaToPixel r g b a) := by
  unfold Extracted rgbaToPixel
  simp only []
  omega

/-- C14. For a rectangular grid with `W ≥ 1` of pixels as `rgbaToPixel` returns them, a
block size `S ≥ 1` and an in-bounds `(x, y)`: if the `n` in-bounds input pixels of the
tile of `(x, y)` all have the value `c ≥ 0` in some channel, the output pixel at `(x, y)`
has the value `c - ⌈c / 2^n⌉` in that channel. The value is reproduced only for `c = 0`,
and a full 8 × 8 tile (`n = 64`) of a value `c` in `[1, 255]` yields `c - 1`. -/
theorem pixelate_uniform_channel (pixels : Grid) (W H : Nat) (S : Int)
    (hW : 1 ≤ W) (hp : Rect pixels W H) (hS : 1 ≤ S) (hg : GridExtracted pixels)
    (ch : Channel) (c : Int) (hc0 : 0 ≤ c) (x y : Nat) (hx : x < W) (hy : y < H)
    (hu : ∀ p ∈ tilePixels pixels W H S x y, p.chan ch = c) :
    ∃ out q, pixelate pixels S = .ok out ∧ pixelAt out x y = some q ∧
      q.chan ch = c - ceilDiv c (2 ^ (tilePixels pixels W H S x y).length) ∧
      (q.chan ch = c ↔ c = 0) ∧
      ((tilePixels pixels W H S x y).length = 64 → 1 ≤ c → c ≤ 255 → q.chan ch = c - 1) := by
  obtain ⟨out, hrun, _, hval⟩ := pixelate_pos hW hp hS
  obtain ⟨p, hpx, hpmem⟩ := tilePixels_self_mem hp S hx hy
  obtain ⟨col, hcol, hmem⟩ := pixelAt_mem hpx
  have hbound := (extracted_chan (hg col hcol p hmem) ch).2
  rw [hu p hpmem] at hbound
  exact ⟨out, _, hrun, hval x y hx hy,
    runningAverage_uniform ch c hc0 (by omega) _ hu⟩

set_option maxRecDepth 100000 in
/-- Witness of C14 on the opaque 8 × 8 grid with block size 8: the single tile is a full
8 × 8 tile of alpha 255, and the output alpha is 254. -/
theorem pixelate_uniform_channel_witness :
    1 ≤ 8 ∧ Rect grid8 8 8 ∧ (1 : Int) ≤ 8 ∧ GridExtracted grid8 ∧ (0 : Int) ≤ 255 ∧
      0 < 8 ∧ 0 < 8 ∧ (∀ p ∈ tilePixels grid8 8 8 8 0 0, p.chan Channel.A = 255) ∧
      (tilePixels grid8 8 8 8 0 0).length = 64 ∧
      ∃ out q, pixelate grid8 8 = .ok out ∧ pixelAt out 0 0 = some q ∧
        q.chan Channel.A = 255 - ceilDiv 255 (2 ^ (tilePixels grid8 8 8 8 0 0).length) ∧
        (q.chan Channel.A = 255 ↔ (255 : Int) = 0) ∧ q.chan Channel.A = 255 - 1 := by
  refine ⟨by decide, by decide, by decide, by decide, by decide, by decide, by decide,
    by decide, by decide, ?_⟩
  obtain ⟨out, q, h1, h2, h3, h4, h5⟩ :=
    pixelate_uniform_channel grid8 8 8 8 (by decide) (by decide) (by decide) (by decide)
      Channel.A 255 (by decide) 0 0 (by decide) (by decide) (by decide)
  exact ⟨out, q, h1, h2, h3, h4, h5 (by decide) (by decide) (by decide)⟩

/-- Remark. Outside the pixels `rgbaToPixel` can return the 64-bit sum of `averagePixels`
can wrap: with red `2^63 - 1` in both pixels of a 1 × 2 grid the output red is
`-2305843009213693953`, where `c - ⌈c / 4⌉` is `6917529027641081855`. -/
theorem pixelate_uniform_channel_wraps :
    ¬ GridExtracted [[⟨9223372036854775807, 0, 0, 0⟩, ⟨9223372036854775807, 0, 0, 0⟩]] ∧
      pixelate [[⟨9223372036854775807, 0, 0, 0⟩, ⟨9223372036854775807, 0, 0, 0⟩]] 2 =
        .ok [[⟨-2305843009213693953, 0, 0, 0⟩, ⟨-2305843009213693953, 0, 0, 0⟩]] ∧
      (9223372036854775807 : Int) - ceilDiv 9223372036854775807 (2 ^ 2) =
        6917529027641081855 :=
  ⟨by decide, by decide, by decide⟩

/-! ## Two runs on one slice -/

/-- C12, as the code behaves. `pixelate` writes its output into its argument. For a
rectangular grid with `W ≥ 1` and channels in `[0, 255]` and a block size `S ≥ 1`, two
successive runs on the same slice both return a `W × H` grid; the first returns the tile
folds of the input, as a run on any slice of equal content does, and the second starts
from that output: at every in-bounds `(x, y)` and in every channel it returns
`v - ⌈v / 2^n⌉`, `v` being the value the first run returned there and `n` the number of
in-bounds pixels of the tile of `(x, y)`. The two outputs agree in a channel exactly where
the first is 0. -/
theorem pixelate_twice (pixels : Grid) (W H : Nat) (S : Int)
    (hW : 1 ≤ W) (hp : Rect pixels W H) (hS : 1 ≤ S) (hin : GridInRange pixels) :
    ∃ out1 out2, pixelateTwice pixels S = .ok (out1, out2) ∧
      Rect out1 W H ∧ Rect out2 W H ∧
      (∀ copy : Grid, copy = pixels → pixelate copy S = .ok out1) ∧
      ∀ x y, x < W → y < H → ∃ q1 q2,
        pixelAt out1 x y = some q1 ∧ pixelAt out2 x y = some q2 ∧
        q1 = (tilePixels pixels W H S x y).foldl averagePixels zeroPixel ∧
        ∀ ch, q2.chan ch =
            q1.chan ch - ceilDiv (q1.chan ch) (2 ^ (tilePixels out1 W H S x y).length) ∧
          (q2.chan ch = q1.chan ch ↔ q1.chan ch = 0) := by
  obtain ⟨out1, hrun1, hrect1, hval1⟩ := pixelate_pos hW hp hS
  obtain ⟨out2, hrun2, hrect2, hval2⟩ := pixelate_pos hW hrect1 hS
  refine ⟨out1, out2, ?_, hrect1, hrect2, fun copy hc => by rw [hc]; exact hrun1, ?_⟩
  · unfold pixelateTwice
    rw [hrun1]
    show (pixelate out1 S >>= fun second => pure (out1, second)) = _
    rw [hrun2]
    rfl
  · intro x y hx hy
    refine ⟨_, _, hval1 x y hx hy, hval2 x y hx hy, rfl, fun ch => ?_⟩
    have hq1 : InRange ((tilePixels pixels W H S x y).foldl averagePixels zeroPixel) :=
      foldl_inRange _ (fun r hr => tilePixels_inRange hin hr) _ zeroPixel_inRange
    have hsame : ∀ p ∈ tilePixels out1 W H S x y,
        p.chan ch = ((tilePixels pixels W H S x y).foldl averagePixels zeroPixel).chan ch := by
      intro p hpmem
      obtain ⟨x', y', hx', hy', ex, ey, hat⟩ := tilePixels_mem_coords hpmem
      rw [hval1 x' y' hx' hy'] at hat
      rw [← Option.some.inj hat]
      unfold tilePixels
      rw [ex, ey]
    have hc := inRange_chan hq1 ch
    have h := runningAverage_uniform ch _ hc.1 (by omega) _ hsame
    exact ⟨h.1, h.2.1⟩

set_option maxRecDepth 100000 in
/-- Witness of the amended C12 on `quadGrid` with block size 2. -/
theorem pixelate_twice_witness :
    1 ≤ 4 ∧ Rect quadGrid 4 4 ∧ (1 : Int) ≤ 2 ∧ GridInRange quadGrid ∧
      ∃ out1 out2, pixelateTwice quadGrid 2 = .ok (out1, out2) ∧
        Rect out1 4 4 ∧ Rect out2 4 4 ∧
        (∀ copy : Grid, copy = quadGrid → pixelate copy 2 = .ok out1) ∧
        ∀ x y, x < 4 → y < 4 → ∃ q1 q2,
          pixelAt out1 x y = some q1 ∧ pixelAt out2 x y = some q2 ∧
          q1 = (tilePixels quadGrid 4 4 2 x y).foldl averagePixels zeroPixel ∧
          ∀ ch, q2.chan ch =
              q1.chan ch - ceilDiv (q1.chan ch) (2 ^ (tilePixels out1 4 4 2 x y).length) ∧
            (q2.chan ch = q1.chan ch ↔ q1.chan ch = 0) :=
  ⟨by decide, by decide, by decide, by decide,
    pixelate_twice quadGrid 4 4 2 (by decide) (by decide) (by decide) (by decide)⟩

set_option maxRecDepth 100000 in
/-- Counterexample to C12 as stated: two runs of `pixelate` with block size 2 on the slice
holding `quadGrid` return different grids; the first returns the 239-grid and the second,
reading what the first wrote, the 224-grid. -/
theorem pixelate_twice_differs :
    Rect quadGrid 4 4 ∧ GridInRange quadGrid ∧ (1 : Int) ≤ 2 ∧
      ∃ out1 out2, pixelateTwice quadGrid 2 = .ok (out1, out2) ∧ out1 ≠ out2 ∧
        pixelAt out1 0 0 = some ⟨239, 0, 0, 239⟩ ∧ pixelAt out2 0 0 = some ⟨224, 0, 0, 224⟩ :=
  ⟨by decide, by decide, by decide,
    [[⟨239, 0, 0, 239⟩, ⟨239, 0, 0, 239⟩, ⟨0, 239, 0, 239⟩, ⟨0, 239, 0, 239⟩],
     [⟨239, 0, 0, 239⟩, ⟨239, 0, 0, 239⟩, ⟨0, 239, 0, 239⟩, ⟨0, 239, 0, 239⟩],
     [⟨0, 0, 239, 239⟩, ⟨0, 0, 239, 239⟩, ⟨15, 30, 60, 120⟩, ⟨15, 30, 60, 120⟩],
     [⟨0, 0, 239, 239⟩, ⟨0, 0, 239, 239⟩, ⟨15, 30, 60, 120⟩, ⟨15, 30, 60, 120⟩]],
    [[⟨224, 0, 0, 224⟩, ⟨224, 0, 0, 224⟩, ⟨0, 224, 0, 224⟩, ⟨0, 224, 0, 224⟩],
     [⟨224, 0, 0, 224⟩, ⟨224, 0, 0, 224⟩, ⟨0, 224, 0, 224⟩, ⟨0, 224, 0, 224⟩],
     [⟨0, 0, 224, 224⟩, ⟨0, 0, 224, 224⟩, ⟨14, 28, 56, 112⟩, ⟨14, 28, 56, 112⟩],
     [⟨0, 0, 224, 224⟩, ⟨0, 0, 224, 224⟩, ⟨14, 28, 56, 112⟩, ⟨14, 28, 56, 112⟩]],
    by decide, by decide, by decide, by decide⟩

/-! ## Extraction of the pixel grid -/

theorem foldl_append_singleton {β : Type} (f : Nat → β) (n : Nat) :
    (List.range n).foldl (fun (acc : List β) (i : Nat) => acc ++ [f i]) [] =
      (List.range n).map f := by
  induction n with
  | zero => rfl
  | succ k ih =>
    rw [List.range_succ, List.foldl_append, ih, List.map_append]
    rfl

theorem getPixels_eq_map (img : Image) :
    getPixels (.ok img) = .ok ((List.range img.Bounds.Max.X.toNat).map (fun (x : Nat) =>
      (List.range img.Bounds.Max.Y.toNat).map (fun (y : Nat) =>
        rgbaToPixel (img.At x y).r (img.At x y).g (img.At x y).b (img.At x y).a))) := by
  unfold getPixels
  simp only [foldl_append_singleton]

theorem getPixels_cells (img : Image) :
    ∃ out, getPixels (.ok img) = .ok out ∧
      Rect out img.Bounds.Max.X.toNat img.Bounds.Max.Y.toNat ∧
      ∀ i j : Nat, i < img.Bounds.Max.X.toNat → j < img.Bounds.Max.Y.toNat →
        pixelAt out i j = some (rgbaToPixel (img.At i j).r (img.At i j).g (img.At i j).b
          (img.At i j).a) := by
  refine ⟨_, getPixels_eq_map img, ⟨by simp, ?_⟩, ?_⟩
  · intro col hcol
    obtain ⟨x, _, rfl⟩ := List.mem_map.mp hcol
    simp
  · intro i j hi hj
    simp [pixelAt, List.getElem?_map, List.getElem?_range hi, List.getElem?_range hj]

/-- C11. For a decoded image, whose bounds `[Min.X, Max.X) × [Min.Y, Max.Y)` start at the
origin as the decoders produce them, `getPixels` returns a grid with `Max.X - Min.X`
columns of `Max.Y - Min.Y` entries, the width and height of the image, whose entry
`(i, j)` is the `rgbaToPixel`-normalised colour of the coordinate `(Min.X + i, Min.Y + j)`:
the coordinates within the bounds, each once. -/
theorem getPixels_origin (img : Image) (hd : DecoderBounds img) :
    ∃ out, getPixels (.ok img) = .ok out ∧
      Rect out (img.Bounds.Max.X - img.Bounds.Min.X).toNat
        (img.Bounds.Max.Y - img.Bounds.Min.Y).toNat ∧
      ∀ i j : Nat, (i : Int) < img.Bounds.Max.X - img.Bounds.Min.X →
        (j : Int) < img.Bounds.Max.Y - img.Bounds.Min.Y →
        pixelAt out i j =
          some (rgbaToPixel (img.At (img.Bounds.Min.X + i) (img.Bounds.Min.Y + j)).r
            (img.At (img.Bounds.Min.X + i) (img.Bounds.Min.Y + j)).g
            (img.At (img.Bounds.Min.X + i) (img.Bounds.Min.Y + j)).b
            (img.At (img.Bounds.Min.X + i) (img.Bounds.Min.Y + j)).a) := by
  obtain ⟨hx, hy⟩ := hd
  obtain ⟨out, hrun, hrect, hval⟩ := getPixels_cells img
  refine ⟨out, hrun, ?_, ?_⟩
  · rw [hx, hy, Int.sub_zero, Int.sub_zero]
    exact hrect
  · intro i j hi hj
    rw [hx, hy, Int.zero_add, Int.zero_add]
    rw [hx] at hi
    rw [hy] at hj
    exact hval i j (by omega) (by omega)

/-- Witness of C11 on the 2 × 3 image `originImage`. -/
theorem getPixels_origin_witness :
    DecoderBounds originImage ∧
      ∃ out, getPixels (.ok originImage) = .ok out ∧
        Rect out (originImage.Bounds.Max.X - originImage.Bounds.Min.X).toNat
          (originImage.Bounds.Max.Y - originImage.Bounds.Min.Y).toNat ∧
        ∀ i j : Nat, (i : Int) < originImage.Bounds.Max.X - originImage.Bounds.Min.X →
          (j : Int) < originImage.Bounds.Max.Y - originImage.Bounds.Min.Y →
          pixelAt out i j =
            some (rgbaToPixel
              (originImage.At (originImage.Bounds.Min.X + i) (originImage.Bounds.Min.Y + j)).r
              (originImage.At (originImage.Bounds.Min.X + i) (originImage.Bounds.Min.Y + j)).g
              (originImage.At (originImage.Bounds.Min.X + i) (originImage.Bounds.Min.Y + j)).b
              (originImage.At (originImage.Bounds.Min.X + i) (originImage.Bounds.Min.Y + j)).a) :=
  ⟨by decide, getPixels_origin originImage (by decide)⟩

/-- Remark. `getPixels` reads `bounds.Max` only: on an image value whose bounds were
`[1, 3) × [1, 3)`, which no registered decoder produces, it would return 3 columns of 3
entries sampled from `(0, 0)`. -/
theorem getPixels_ignores_min :
    ¬ DecoderBounds offsetImage ∧
      (offsetImage.Bounds.Max.X - offsetImage.Bounds.Min.X).toNat = 2 ∧
      (offsetImage.Bounds.Max.Y - offsetImage.Bounds.Min.Y).toNat = 2 ∧
      getPixels (.ok offsetImage) = .ok
        [[⟨0, 0, 0, 0⟩, ⟨0, 0, 0, 0⟩, ⟨0, 0, 0, 0⟩],
         [⟨0, 0, 0, 0⟩, ⟨255, 255, 255, 255⟩, ⟨255, 255, 255, 255⟩],
         [⟨0, 0, 0, 0⟩, ⟨255, 255, 255, 255⟩, ⟨255, 255, 255, 255⟩]] :=
  ⟨by decide, by decide, by decide, rfl⟩

end Pxl8
